import Mathlib

/-!
# Ingestion scheduler (`app.js`): embedding and properties

The program is an Express server with two handlers (`POST /ingest`,
`GET /status/:ingestionId`) and one asynchronous function `processNextBatch`.
JavaScript runs each handler, and each stretch of `processNextBatch` between two
`await`s, to completion before anything else runs, so the program is embedded as a
state machine whose atomic steps are

* `Event.ingest`  : one run of the `/ingest` handler (with the synchronous start of
  `processNextBatch` it may call),
* `Event.timeout` : the timer of one suspended `processNextBatch` invocation fires and
  the invocation runs on to its next `await` (or to its end),
* `Event.tick`    : the clock (`Date.now()`) advances.

`GET /status` assigns to no variable; it is the function `getStatus` of a state for
the text of a uuid, and `statusHandler` for any route parameter.

Modelling conventions.
* `uuidv4()` is a counter (`State.nextUuid`): the values it returns never repeat.
* `Date.now()` is `State.now`, constant within one atomic step.
* `setTimeout(f, d)` runs `f` once, no earlier than `d` ms after the call.
* `Array.prototype.sort` is a stable sort (ECMAScript 2019); for a consistent
  comparator its result is the one stable sorted arrangement, computed here by
  insertion sort.
* An object reference held across an `await` (`ingestion`, `nextBatch`) is the pair
  of its store key and its index in `batches`; keys are never deleted or overwritten
  and `batches` never changes length after creation.
* A route parameter is the text of a uuid (identified with the counter value) or
  another string; `ingestionStore` is a plain object, so a read of a property name
  inherited from `Object.prototype` yields a truthy value that is not an ingestion.
* `State.dispatchLog` is a history variable (not in the source): the times at which
  line 107 ran, newest first.
-/

namespace LoopAI

/-- The three status strings `'yet_to_start'`, `'triggered'`, `'completed'`. -/
inductive BStatus
  | yet_to_start
  | triggered
  | completed
  deriving DecidableEq, Repr

/-- The keys of `PRIORITY_WEIGHTS`. -/
inductive Priority
  | HIGH
  | MEDIUM
  | LOW
  deriving DecidableEq, Repr

/-- The table `PRIORITY_WEIGHTS` (lines 21-25). -/
def PRIORITY_WEIGHTS : Priority → Int
  | .HIGH => 3
  | .MEDIUM => 2
  | .LOW => 1

/-- The constant `RATE_LIMIT_MS` (line 17). -/
def RATE_LIMIT_MS : Int := 5000

/-- An element of the `ids` array of a request body: a number with an integer value,
or any other JSON value. -/
inductive JVal
  | num (n : Int)
  | other
  deriving DecidableEq, Repr

/-- A batch object (lines 55-59). -/
structure Batch where
  batch_id : Nat
  ids : List JVal
  status : BStatus
  deriving DecidableEq, Repr

/-- A value of `ingestionStore` (lines 44-49). -/
structure Ingestion where
  status : BStatus
  batches : List Batch
  priority : Priority
  timestamp : Int
  deriving DecidableEq, Repr

/-- An element of `priorityQueue` (lines 63-67). -/
structure QueueEntry where
  ingestionId : Nat
  priority : Priority
  timestamp : Int
  deriving DecidableEq, Repr

/-- An invocation of `processNextBatch` suspended at one of its two `await`s:
the rate-limit wait of line 104 or the simulated execution of line 111.  It holds
the captured `ingestion` (by key) and `nextBatch` (by index), and the earliest time
its timer may fire. -/
inductive Suspended
  | rateWait (ingestionId : Nat) (batch : Nat) (wake : Int)
  | execWait (ingestionId : Nat) (batch : Nat) (wake : Int)
  deriving DecidableEq, Repr

/-- The global variables of `app.js`, the clock, the uuid counter, the suspended
invocations of `processNextBatch`, and the dispatch history. -/
structure State where
  ingestionStore : List (Nat × Ingestion)
  priorityQueue : List QueueEntry
  lastProcessedTime : Int
  now : Int
  nextUuid : Nat
  inFlight : List Suspended
  dispatchLog : List Int
  deriving DecidableEq, Repr

/-- The state at process start, with the clock reading `t0`. -/
def init (t0 : Nat) : State :=
  { ingestionStore := [], priorityQueue := [], lastProcessedTime := 0, now := (t0 : Int),
    nextUuid := 0, inFlight := [], dispatchLog := [] }

/-! ## The store -/

/-- Read `ingestionStore[id]`. -/
def storeGet : List (Nat × Ingestion) → Nat → Option Ingestion
  | [], _ => none
  | (k, v) :: rest, id => if k = id then some v else storeGet rest id

/-- Assign `ingestionStore[id] = v`. -/
def storeSet : List (Nat × Ingestion) → Nat → Ingestion → List (Nat × Ingestion)
  | [], id, v => [(id, v)]
  | (k, w) :: rest, id, v => if k = id then (k, v) :: rest else (k, w) :: storeSet rest id v

/-- Mutate the object `ingestionStore[id]` in place. -/
def storeModify : List (Nat × Ingestion) → Nat → (Ingestion → Ingestion) →
    List (Nat × Ingestion)
  | [], _, _ => []
  | (k, w) :: rest, id, f =>
    if k = id then (k, f w) :: rest else (k, w) :: storeModify rest id f

/-- Assign `batches[k].status = st`. -/
def setStatusAt : List Batch → Nat → BStatus → List Batch
  | [], _, _ => []
  | b :: rest, 0, st => { b with status := st } :: rest
  | b :: rest, k + 1, st => b :: setStatusAt rest k st

/-- Assign `nextBatch.status = st` for the batch `k` of ingestion `id`. -/
def setBatchStatus (store : List (Nat × Ingestion)) (id k : Nat) (st : BStatus) :
    List (Nat × Ingestion) :=
  storeModify store id (fun ing => { ing with batches := setStatusAt ing.batches k st })

/-- Assign `ingestion.status = st`. -/
def setIngestionStatus (store : List (Nat × Ingestion)) (id : Nat) (st : BStatus) :
    List (Nat × Ingestion) :=
  storeModify store id (fun ing => { ing with status := st })

/-- The batches of the ingestion object held under key `id`. -/
def batchesOf (store : List (Nat × Ingestion)) (id : Nat) : List Batch :=
  match storeGet store id with
  | some ing => ing.batches
  | none => []

/-- Index of the result of `batches.find(batch => batch.status === 'yet_to_start')`. -/
def firstPending : List Batch → Option Nat
  | [] => none
  | b :: rest =>
    if b.status = .yet_to_start then some 0 else (firstPending rest).map (· + 1)

/-! ## `POST /ingest` -/

/-- Outcome of the `/ingest` handler: status 400, or 200 with the new id. -/
inductive IngestResponse
  | badRequest
  | ok (ingestion_id : Nat)
  deriving DecidableEq, Repr

/-- Test `['HIGH', 'MEDIUM', 'LOW'].includes(priority)`, returning the key. -/
def parsePriority (priority : String) : Option Priority :=
  if priority = "HIGH" then some .HIGH
  else if priority = "MEDIUM" then some .MEDIUM
  else if priority = "LOW" then some .LOW
  else none

/-- Test `Number.isInteger(id) && id >= 1 && id <= 1000000007` (line 37). -/
def validId : JVal → Bool
  | .num n => decide (1 ≤ n) && decide (n ≤ 1000000007)
  | .other => false

/-- The loop of lines 52-60, `fuel` bounding the number of iterations: from index
`i`, push one batch of `ids.slice(i, i + 3)` with a fresh `batch_id`, and step by 3. -/
def batchLoop (ids : List JVal) : Nat → Nat → Nat → List Batch
  | 0, _, _ => []
  | fuel + 1, i, uuid =>
    if i < ids.length then
      { batch_id := uuid, ids := (ids.drop i).take 3, status := .yet_to_start } ::
        batchLoop ids fuel (i + 3) (uuid + 1)
    else []

/-- The comparator passed to `priorityQueue.sort` (lines 70-75). -/
def compareEntries (a b : QueueEntry) : Int :=
  if PRIORITY_WEIGHTS b.priority ≠ PRIORITY_WEIGHTS a.priority then
    PRIORITY_WEIGHTS b.priority - PRIORITY_WEIGHTS a.priority
  else a.timestamp - b.timestamp

/-- Ordering induced by the comparator: `a` need not come after `b`. -/
def entryLe (a b : QueueEntry) : Prop := compareEntries a b ≤ 0

instance : DecidableRel entryLe := fun a b => by
  unfold entryLe
  infer_instance

/-- Run `priorityQueue.sort(compareEntries)`. -/
def sortQueue (q : List QueueEntry) : List QueueEntry :=
  q.insertionSort entryLe

/-! ## `processNextBatch` -/

/-- Lines 107-111: record the dispatch time, mark the batch `'triggered'`, and
suspend for 1000 ms per id. -/
def dispatch (s : State) (id k : Nat) : State :=
  let len : Nat := match (batchesOf s.ingestionStore id)[k]? with
    | some b => b.ids.length
    | none => 0
  { s with
    lastProcessedTime := s.now
    ingestionStore := setBatchStatus s.ingestionStore id k .triggered
    inFlight := s.inFlight ++ [.execWait id k (s.now + 1000 * (len : Int))]
    dispatchLog := s.now :: s.dispatchLog }

/-- Lines 87-105, one call of `processNextBatch` on the queue `q` (each recursive
call is the `priorityQueue.shift(); processNextBatch()` of lines 95-96): return on
an empty queue; drop a head whose ingestion has no `'yet_to_start'` batch; else take
the head's first such batch, and either suspend on the rate limit or dispatch. -/
def processNextBatch (s : State) : List QueueEntry → State
  | [] => { s with priorityQueue := [] }
  | e :: rest =>
    match storeGet s.ingestionStore e.ingestionId with
    | none => { s with priorityQueue := e :: rest }
    | some ingestion =>
      match firstPending ingestion.batches with
      | none => processNextBatch s rest
      | some k =>
        let s1 := { s with priorityQueue := e :: rest }
        if s.now - s.lastProcessedTime < RATE_LIMIT_MS then
          { s1 with inFlight := s1.inFlight ++
              [.rateWait e.ingestionId k
                (s.now + (RATE_LIMIT_MS - (s.now - s.lastProcessedTime)))] }
        else dispatch s1 e.ingestionId k

/-- Lines 113-127, after the simulated execution: mark the batch `'completed'`,
update `ingestion.status`, `shift()` the queue when every batch of the captured
ingestion is completed, and call `processNextBatch`. -/
def complete (s : State) (id k : Nat) : State :=
  let store1 := setBatchStatus s.ingestionStore id k .completed
  let batches := batchesOf store1 id
  let allCompleted := batches.all (fun b => decide (b.status = .completed))
  let anyTriggered := batches.any (fun b => decide (b.status = .triggered))
  let s2 : State :=
    if allCompleted then
      { s with ingestionStore := setIngestionStatus store1 id .completed
               priorityQueue := s.priorityQueue.tail }
    else if anyTriggered then
      { s with ingestionStore := setIngestionStatus store1 id .triggered }
    else { s with ingestionStore := store1 }
  processNextBatch s2 s2.priorityQueue

/-- The timer of the `i`-th suspended invocation fires (no earlier than its wake
time) and the invocation resumes. -/
def resume (s : State) (i : Nat) : State :=
  match s.inFlight[i]? with
  | none => s
  | some (.rateWait id k wake) =>
    if wake ≤ s.now then dispatch { s with inFlight := s.inFlight.eraseIdx i } id k else s
  | some (.execWait id k wake) =>
    if wake ≤ s.now then complete { s with inFlight := s.inFlight.eraseIdx i } id k else s

/-- Lines 41-80 of the `/ingest` handler, for a request that passed validation:
create the ingestion and its batches, push and sort the queue entry, and call
`processNextBatch` when the queue then has exactly one entry. -/
def acceptRequest (s : State) (l : List JVal) (p : Priority) : State :=
  let ingestionId := s.nextUuid
  let timestamp := s.now
  let batches := batchLoop l l.length 0 (ingestionId + 1)
  let store1 := storeSet s.ingestionStore ingestionId
    { status := .yet_to_start, batches := batches, priority := p, timestamp := timestamp }
  let queue1 := sortQueue (s.priorityQueue ++
    [{ ingestionId := ingestionId, priority := p, timestamp := timestamp }])
  let s1 : State := { s with
    ingestionStore := store1
    priorityQueue := queue1
    nextUuid := ingestionId + 1 + batches.length }
  if queue1.length = 1 then processNextBatch s1 s1.priorityQueue else s1

/-- The `/ingest` handler (lines 28-83) on the body `{ ids, priority }`; `ids` is
`none` when the field is not an array. -/
def ingest (s : State) (ids : Option (List JVal)) (priority : String) :
    State × IngestResponse :=
  match ids, parsePriority priority with
  | some l, some p =>
    if l.length = 0 then (s, .badRequest)
    else if !(l.all validId) then (s, .badRequest)
    else (acceptRequest s l p, .ok s.nextUuid)
  | _, _ => (s, .badRequest)

/-! ## `GET /status/:ingestionId` -/

/-- Outcome of the status handler: 404, or the JSON of lines 148-152. -/
inductive StatusResponse
  | notFound
  | ok (ingestion_id : Nat) (status : BStatus) (batches : List Batch)
  deriving DecidableEq, Repr

/-- The overall status computed at lines 141-146. -/
def overallStatus (ingestion : Ingestion) : BStatus :=
  if ingestion.batches.any (fun b => decide (b.status = .triggered)) then .triggered
  else if ingestion.batches.all (fun b => decide (b.status = .completed)) then .completed
  else .yet_to_start

/-- The status handler (lines 131-153). -/
def getStatus (s : State) (ingestionId : Nat) : StatusResponse :=
  match storeGet s.ingestionStore ingestionId with
  | none => .notFound
  | some ingestion => .ok ingestionId (overallStatus ingestion) ingestion.batches

/-! ## Executions -/

/-- The atomic steps of the system. -/
inductive Event
  | ingest (ids : Option (List JVal)) (priority : String)
  | timeout (i : Nat)
  | tick (dt : Nat)
  deriving DecidableEq, Repr

/-- One atomic step. -/
def step (s : State) : Event → State
  | .ingest ids priority => (ingest s ids priority).1
  | .timeout i => resume s i
  | .tick dt => { s with now := s.now + (dt : Int) }

/-- The state reached from process start (clock `t0`) by a sequence of events. -/
def exec (t0 : Nat) (es : List Event) : State :=
  es.foldl step (init t0)

/-! ## Auxiliary definitions -/

/-- The id lists of the batches stored under a key. -/
def idsOf (store : List (Nat × Ingestion)) (id : Nat) : List (List JVal) :=
  (batchesOf store id).map (fun b => b.ids)

/-- A request the validation of lines 32-39 lets through, with its priority key. -/
def accepted (ids : Option (List JVal)) (priority : String) : Option (List JVal × Priority) :=
  match ids, parsePriority priority with
  | some l, some p => if l.length ≠ 0 ∧ l.all validId = true then some (l, p) else none
  | _, _ => none

/-! ## Predicates used to state the properties -/

/-- Number of batches in a list whose status is `'triggered'`. -/
def trigCount (bs : List Batch) : Nat :=
  bs.countP (fun b => decide (b.status = .triggered))

/-- Number of batches in the whole store whose status is `'triggered'`. -/
def storeTriggered (store : List (Nat × Ingestion)) : Nat :=
  (store.map (fun p => trigCount p.2.batches)).sum

/-- The statuses of a batch list read: `'completed'` batches, then at most one
`'triggered'` batch, then `'yet_to_start'` batches. -/
def inOrder : List Batch → Bool
  | [] => true
  | b :: rest =>
    if b.status = .completed then inOrder rest
    else rest.all (fun c => decide (c.status = .yet_to_start))

/-- The order the comparator asks of two queue entries, `a` placed before `b`:
greater weight first, and for equal weights the smaller timestamp first. -/
def queueOrder (a b : QueueEntry) : Prop :=
  PRIORITY_WEIGHTS a.priority > PRIORITY_WEIGHTS b.priority ∨
    (PRIORITY_WEIGHTS a.priority = PRIORITY_WEIGHTS b.priority ∧ a.timestamp ≤ b.timestamp)

instance : DecidableRel queueOrder := fun a b => by
  unfold queueOrder
  infer_instance

/-- Strengthening of `queueOrder`: for equal weights `a` was also admitted before `b`
(its uuid was drawn earlier). -/
def admittedOrder (a b : QueueEntry) : Prop :=
  PRIORITY_WEIGHTS a.priority > PRIORITY_WEIGHTS b.priority ∨
    (PRIORITY_WEIGHTS a.priority = PRIORITY_WEIGHTS b.priority ∧ a.timestamp ≤ b.timestamp ∧
      a.ingestionId < b.ingestionId)

instance : DecidableRel admittedOrder := fun a b => by
  unfold admittedOrder
  infer_instance

/-- What the suspended invocations say about the rest of the state: none is
suspended exactly when the queue is empty, and then no batch is `'triggered'`; an
invocation waiting on the rate limit holds the first `'yet_to_start'` batch of its
ingestion and wakes no earlier than `RATE_LIMIT_MS` after the last dispatch; an
invocation waiting on the execution holds the one `'triggered'` batch. -/
def WorkerInv (s : State) : Prop :=
  match s.inFlight with
  | [] => s.priorityQueue = [] ∧ storeTriggered s.ingestionStore = 0
  | [.rateWait id k wake] =>
    s.priorityQueue ≠ [] ∧ storeTriggered s.ingestionStore = 0 ∧
      firstPending (batchesOf s.ingestionStore id) = some k ∧
      s.lastProcessedTime + RATE_LIMIT_MS ≤ wake
  | [.execWait id k _] =>
    s.priorityQueue ≠ [] ∧ storeTriggered s.ingestionStore = 1 ∧
      ∃ b, (batchesOf s.ingestionStore id)[k]? = some b ∧ b.status = .triggered
  | _ => False

/-- The part of the invariant that does not mention the suspended invocations. -/
structure BaseInv (s : State) : Prop where
  keys : ∀ p ∈ s.ingestionStore, p.1 < s.nextUuid
  shape : ∀ p ∈ s.ingestionStore, inOrder p.2.batches = true
  stored : ∀ e ∈ s.priorityQueue, (storeGet s.ingestionStore e.ingestionId).isSome = true
  sorted : s.priorityQueue.Pairwise admittedOrder
  bound : ∀ e ∈ s.priorityQueue, e.timestamp ≤ s.now ∧ e.ingestionId < s.nextUuid
  clock : s.lastProcessedTime ≤ s.now
  spaced : s.dispatchLog.Chain' (fun t2 t1 => RATE_LIMIT_MS ≤ t2 - t1)
  logged : ∀ t ∈ s.dispatchLog, t ≤ s.lastProcessedTime

/-- The invariant of all reachable states. -/
structure Inv (s : State) : Prop where
  base : BaseInv s
  worker : WorkerInv s

/-- The overall status in a status response, if the response is not the 404. -/
def statusOf : StatusResponse → Option BStatus
  | .notFound => none
  | .ok _ st _ => some st

/-- Requests `{ ids: [...], priority }` whose ids are the given integers. -/
def request (ids : List Int) (priority : String) : Event :=
  .ingest (some (ids.map JVal.num)) priority

/-- The statuses of the batches stored under a key, in partition order. -/
def statusesOf (store : List (Nat × Ingestion)) (id : Nat) : List BStatus :=
  (batchesOf store id).map (fun b => b.status)

/-- Relation between the state `s` before and the state `r` after a stretch of code,
as far as the rate limiter goes: either `lastProcessedTime` and the dispatch
history are untouched, or line 107 ran once, at the current time, no earlier than
`RATE_LIMIT_MS` after the previous value of `lastProcessedTime`. -/
def atMostOneDispatch (s r : State) : Prop :=
  (r.lastProcessedTime = s.lastProcessedTime ∧ r.dispatchLog = s.dispatchLog) ∨
    (r.lastProcessedTime = r.now ∧ r.dispatchLog = r.now :: s.dispatchLog ∧
      RATE_LIMIT_MS ≤ r.now - s.lastProcessedTime)

/-- Every batch stored under the key exists and is `'completed'`. -/
def fullyCompleted (store : List (Nat × Ingestion)) (id : Nat) : Prop :=
  ∃ ing, storeGet store id = some ing ∧ ∀ b ∈ ing.batches, b.status = .completed

/-- The status of batch `k` of the ingestion stored under `id`, if there is one. -/
def statusAt (store : List (Nat × Ingestion)) (id k : Nat) : Option BStatus :=
  ((batchesOf store id)[k]?).map (fun b => b.status)

/-- What one step may do to the status of a batch: leave it, take it from
`'yet_to_start'` to `'triggered'`, or take it from `'triggered'` to `'completed'`. -/
def statusStep (a b : BStatus) : Prop :=
  a = b ∨ (a = .yet_to_start ∧ b = .triggered) ∨ (a = .triggered ∧ b = .completed)

instance : DecidableRel statusStep := fun a b => by
  unfold statusStep
  infer_instance

/-- A value of the route parameter `:ingestionId`: the text of a uuid, identified
with the counter value that stands for it (whether or not `uuidv4()` has returned
it), or any other string. -/
inductive RouteKey
  | uuid (n : Nat)
  | text (t : String)
  deriving DecidableEq, Repr

/-- The property names a plain object inherits from `Object.prototype`.
`ingestionStore` is created by `{}` (line 11), so reading `ingestionStore[t]` for
one of these names yields a function or object, which is truthy and has no
`batches` property. -/
def objectPrototypeKeys : List String :=
  ["constructor", "__proto__", "hasOwnProperty", "isPrototypeOf", "propertyIsEnumerable",
    "toLocaleString", "toString", "valueOf", "__defineGetter__", "__defineSetter__",
    "__lookupGetter__", "__lookupSetter__"]

/-- Outcome of the status route: a response of the handler, or the `TypeError`
thrown at line 142 by `ingestion.batches.some` when `ingestion.batches` is
`undefined` (Express answers it with status 500). -/
inductive RouteResponse
  | reply (r : StatusResponse)
  | typeError
  deriving DecidableEq, Repr

/-- The status handler (lines 131-153) on any route parameter, with the state it
leaves: the handler assigns to no variable.  For the text of a uuid it is
`getStatus`; for another string the test of line 134 sees `undefined` unless the
string names an inherited property. -/
def statusHandler (s : State) : RouteKey → State × RouteResponse
  | .uuid n => (s, .reply (getStatus s n))
  | .text t =>
    if t ∈ objectPrototypeKeys then (s, .typeError) else (s, .reply .notFound)

/-- The ids returned by the successful admissions of an execution that starts in
state `s`. -/
def returnedIds (s : State) : List Event → List Nat
  | [] => []
  | .ingest ids priority :: rest =>
    match (ingest s ids priority).2 with
    | .ok id => id :: returnedIds (ingest s ids priority).1 rest
    | .badRequest => returnedIds (ingest s ids priority).1 rest
  | .timeout i :: rest => returnedIds (resume s i) rest
  | .tick dt :: rest => returnedIds { s with now := s.now + (dt : Int) } rest

/-- Everything in an ingestion except the status values: its priority, its
timestamp, and the `batch_id` and `ids` of its batches in order. -/
def skeleton (ing : Ingestion) : Priority × Int × List (Nat × List JVal) :=
  (ing.priority, ing.timestamp, ing.batches.map (fun b => (b.batch_id, b.ids)))

/-- Every ingestion of the first store is in the second under the same key, equal
to it in everything except status values. -/
def Retains (store1 store2 : List (Nat × Ingestion)) : Prop :=
  ∀ id ing, storeGet store1 id = some ing →
    ∃ ing2, storeGet store2 id = some ing2 ∧ skeleton ing2 = skeleton ing

/-- The stored `status` field of an ingestion is not `'triggered'`, and is
`'completed'` only if every batch is `'completed'`. -/
def StoredStatusOk (ing : Ingestion) : Prop :=
  ing.status ≠ .triggered ∧ (ing.status = .completed → ∀ b ∈ ing.batches, b.status = .completed)

/-- Every stored ingestion satisfies `StoredStatusOk`. -/
def StatusInv (store : List (Nat × Ingestion)) : Prop :=
  ∀ p ∈ store, StoredStatusOk p.2

/-- An element of `ids` is an integer in [1, 1000000007]. -/
def idInRange (x : JVal) : Prop :=
  ∃ n : Int, x = .num n ∧ 1 ≤ n ∧ n ≤ 1000000007

/-- The rejection condition in the words of the specification: `ids` is not a
non-empty array, or `priority` is not one of the three names, or some element of
`ids` is not an integer in [1, 1000000007]. -/
def rejectCondition (ids : Option (List JVal)) (priority : String) : Prop :=
  (ids = none ∨ ids = some []) ∨ priority ∉ ["HIGH", "MEDIUM", "LOW"] ∨
    ∃ l, ids = some l ∧ ∃ x ∈ l, ¬ idInRange x

/-! # Properties -/

/-! ## Store lemmas -/

theorem storeGet_storeSet (store : List (Nat × Ingestion)) (id id2 : Nat) (v : Ingestion) :
    storeGet (storeSet store id v) id2 = if id = id2 then some v else storeGet store id2 := by
  induction store with
  | nil => simp [storeSet, storeGet]
  | cons p rest ih =>
    obtain ⟨k, w⟩ := p
    by_cases hk : k = id
    · subst hk
      by_cases h2 : k = id2 <;> simp [storeSet, storeGet, h2]
    · by_cases h2 : k = id2
      · subst h2
        have : ¬ id = k := fun h => hk h.symm
        simp [storeSet, storeGet, hk, this]
      · simp [storeSet, storeGet, hk, h2, ih]

theorem storeGet_storeModify (store : List (Nat × Ingestion)) (id id2 : Nat)
    (f : Ingestion → Ingestion) :
    storeGet (storeModify store id f) id2 =
      if id = id2 then (storeGet store id2).map f else storeGet store id2 := by
  induction store with
  | nil => simp [storeModify, storeGet]
  | cons p rest ih =>
    obtain ⟨k, w⟩ := p
    by_cases hk : k = id
    · subst hk
      by_cases h2 : k = id2 <;> simp [storeModify, storeGet, h2]
    · by_cases h2 : k = id2
      · subst h2
        have : ¬ id = k := fun h => hk h.symm
        simp [storeModify, storeGet, hk, this]
      · simp [storeModify, storeGet, hk, h2, ih]

theorem map_ids_setStatusAt (bs : List Batch) (k : Nat) (st : BStatus) :
    (setStatusAt bs k st).map (fun b => b.ids) = bs.map (fun b => b.ids) := by
  induction bs generalizing k with
  | nil => simp [setStatusAt]
  | cons b rest ih =>
    cases k with
    | zero => simp [setStatusAt]
    | succ k => simp [setStatusAt, ih]

theorem idsOf_setBatchStatus (store : List (Nat × Ingestion)) (id k id2 : Nat) (st : BStatus) :
    idsOf (setBatchStatus store id k st) id2 = idsOf store id2 := by
  unfold idsOf batchesOf setBatchStatus
  rw [storeGet_storeModify]
  by_cases h : id = id2
  · simp only [h, if_true]
    cases storeGet store id2 with
    | none => rfl
    | some ing => simp [map_ids_setStatusAt]
  · simp [h]

theorem idsOf_setIngestionStatus (store : List (Nat × Ingestion)) (id id2 : Nat) (st : BStatus) :
    idsOf (setIngestionStatus store id st) id2 = idsOf store id2 := by
  unfold idsOf batchesOf setIngestionStatus
  rw [storeGet_storeModify]
  by_cases h : id = id2
  · simp only [h, if_true]
    cases storeGet store id2 with
    | none => rfl
    | some ing => simp
  · simp [h]

theorem idsOf_processNextBatch (s : State) (q : List QueueEntry) (id : Nat) :
    idsOf (processNextBatch s q).ingestionStore id = idsOf s.ingestionStore id := by
  induction q with
  | nil => simp [processNextBatch]
  | cons e rest ih =>
    unfold processNextBatch
    split
    · rfl
    · split
      · exact ih
      · split
        · rfl
        · simp [dispatch, idsOf_setBatchStatus]

/-! ## The partition loop -/

theorem flatten_batchLoop (ids : List JVal) (fuel i uuid : Nat) (h : ids.length ≤ i + fuel) :
    ((batchLoop ids fuel i uuid).map (fun b => b.ids)).flatten = ids.drop i := by
  induction fuel generalizing i uuid with
  | zero =>
    have : ids.length ≤ i := by omega
    simp [batchLoop, List.drop_eq_nil_of_le this]
  | succ fuel ih =>
    unfold batchLoop
    by_cases hi : i < ids.length
    · simp only [hi, if_true, List.map_cons, List.flatten_cons]
      rw [ih (i + 3) (uuid + 1) (by omega), ← List.drop_drop]
      exact List.take_append_drop 3 _
    · have : ids.length ≤ i := by omega
      simp [hi, List.drop_eq_nil_of_le this]

theorem length_batchLoop (ids : List JVal) (fuel i uuid : Nat) (h : ids.length ≤ i + fuel) :
    (batchLoop ids fuel i uuid).length = (ids.length - i + 2) / 3 := by
  induction fuel generalizing i uuid with
  | zero =>
    have : ids.length - i = 0 := by omega
    simp [batchLoop, this]
  | succ fuel ih =>
    unfold batchLoop
    by_cases hi : i < ids.length
    · simp only [hi, if_true, List.length_cons]
      rw [ih (i + 3) (uuid + 1) (by omega)]
      omega
    · have : ids.length - i = 0 := by omega
      simp [hi, this]

theorem size_batchLoop (ids : List JVal) (fuel i uuid : Nat) :
    ∀ b ∈ batchLoop ids fuel i uuid, 1 ≤ b.ids.length ∧ b.ids.length ≤ 3 := by
  induction fuel generalizing i uuid with
  | zero => simp [batchLoop]
  | succ fuel ih =>
    unfold batchLoop
    by_cases hi : i < ids.length
    · simp only [hi, if_true, List.mem_cons]
      rintro b (rfl | hb)
      · simp only [List.length_take, List.length_drop]
        omega
      · exact ih _ _ b hb
    · simp [hi]

theorem status_batchLoop (ids : List JVal) (fuel i uuid : Nat) :
    ∀ b ∈ batchLoop ids fuel i uuid, b.status = .yet_to_start := by
  induction fuel generalizing i uuid with
  | zero => simp [batchLoop]
  | succ fuel ih =>
    unfold batchLoop
    by_cases hi : i < ids.length
    · simp only [hi, if_true, List.mem_cons]
      rintro b (rfl | hb)
      · rfl
      · exact ih _ _ b hb
    · simp [hi]

theorem ingest_of_accepted (s : State) (ids : Option (List JVal)) (priority : String)
    (l : List JVal) (p : Priority) (h : accepted ids priority = some (l, p)) :
    ingest s ids priority = (acceptRequest s l p, .ok s.nextUuid) := by
  cases ids with
  | none => simp [accepted] at h
  | some l1 =>
    cases hp : parsePriority priority with
    | none => simp [accepted, hp] at h
    | some p1 =>
      simp only [accepted, hp] at h
      by_cases hv : l1.length ≠ 0 ∧ l1.all validId = true
      · rw [if_pos hv] at h
        simp only [Option.some.injEq, Prod.mk.injEq] at h
        obtain ⟨rfl, rfl⟩ := h
        simp only [ingest, hp]
        rw [if_neg hv.1, if_neg (by simp [hv.2])]
      · rw [if_neg hv] at h
        simp at h

theorem idsOf_acceptRequest (s : State) (l : List JVal) (p : Priority) :
    idsOf (acceptRequest s l p).ingestionStore s.nextUuid =
      (batchLoop l l.length 0 (s.nextUuid + 1)).map (fun b => b.ids) := by
  unfold acceptRequest
  simp only
  split
  · rw [idsOf_processNextBatch]
    simp [idsOf, batchesOf, storeGet_storeSet]
  · simp [idsOf, batchesOf, storeGet_storeSet]

/-! ## Batch lists -/

theorem firstPending_some (bs : List Batch) (k : Nat) (h : firstPending bs = some k) :
    ∃ b, bs[k]? = some b ∧ b.status = .yet_to_start := by
  induction bs generalizing k with
  | nil => simp [firstPending] at h
  | cons b rest ih =>
    unfold firstPending at h
    by_cases hb : b.status = .yet_to_start
    · simp only [hb, if_true, Option.some.injEq] at h
      subst h
      exact ⟨b, by simp, hb⟩
    · simp only [hb, if_false, Option.map_eq_some'] at h
      obtain ⟨j, hj, rfl⟩ := h
      obtain ⟨c, hc, hs⟩ := ih j hj
      exact ⟨c, by simpa using hc, hs⟩

theorem getElem?_setStatusAt (bs : List Batch) (k : Nat) (st : BStatus) :
    (setStatusAt bs k st)[k]? = (bs[k]?).map (fun b => { b with status := st }) := by
  induction bs generalizing k with
  | nil => simp [setStatusAt]
  | cons b rest ih =>
    cases k with
    | zero => simp [setStatusAt]
    | succ k => simpa [setStatusAt] using ih k

theorem trigCount_dispatch (bs : List Batch) (k : Nat) (b : Batch) (h : bs[k]? = some b)
    (hb : b.status ≠ .triggered) :
    trigCount (setStatusAt bs k .triggered) = trigCount bs + 1 := by
  induction bs generalizing k with
  | nil => simp at h
  | cons c rest ih =>
    cases k with
    | zero =>
      simp only [List.getElem?_cons_zero, Option.some.injEq] at h
      subst h
      simp [setStatusAt, trigCount, List.countP_cons, hb]
    | succ k =>
      simp only [List.getElem?_cons_succ] at h
      have := ih k h
      simp only [trigCount] at this
      simp only [setStatusAt, trigCount, List.countP_cons, this]
      omega

theorem trigCount_complete (bs : List Batch) (k : Nat) (b : Batch) (h : bs[k]? = some b)
    (hb : b.status = .triggered) :
    trigCount (setStatusAt bs k .completed) + 1 = trigCount bs := by
  induction bs generalizing k with
  | nil => simp at h
  | cons c rest ih =>
    cases k with
    | zero =>
      simp only [List.getElem?_cons_zero, Option.some.injEq] at h
      subst h
      simp [setStatusAt, trigCount, List.countP_cons, hb]
    | succ k =>
      simp only [List.getElem?_cons_succ] at h
      have := ih k h
      simp only [trigCount] at this
      simp only [setStatusAt, trigCount, List.countP_cons, ← this]
      omega

theorem inOrder_of_allPending (bs : List Batch)
    (h : bs.all (fun c => decide (c.status = .yet_to_start)) = true) : inOrder bs = true := by
  cases bs with
  | nil => rfl
  | cons b rest =>
    simp only [List.all_cons, Bool.and_eq_true, decide_eq_true_eq] at h
    simp [inOrder, h.1, h.2]

theorem inOrder_dispatch (bs : List Batch) (k : Nat) (h : inOrder bs = true)
    (hk : firstPending bs = some k) (h0 : trigCount bs = 0) :
    inOrder (setStatusAt bs k .triggered) = true := by
  induction bs generalizing k with
  | nil => simp [firstPending] at hk
  | cons b rest ih =>
    unfold firstPending at hk
    by_cases hb : b.status = .yet_to_start
    · simp only [hb, if_true, Option.some.injEq] at hk
      subst hk
      simpa [inOrder, setStatusAt, hb] using h
    · simp only [hb, if_false, Option.map_eq_some'] at hk
      obtain ⟨j, hj, rfl⟩ := hk
      have hnt : b.status ≠ .triggered := by
        intro ht
        simp [trigCount, List.countP_cons, ht] at h0
      have hc : b.status = .completed := by
        cases hs : b.status <;> simp_all
      have h0r : trigCount rest = 0 := by
        simp only [trigCount, List.countP_cons] at h0
        simp only [trigCount]
        omega
      simp only [inOrder, hc, if_true] at h
      simp only [setStatusAt, inOrder, hc, if_true]
      exact ih j h hj h0r

theorem inOrder_complete (bs : List Batch) (k : Nat) (b : Batch) (h : inOrder bs = true)
    (hk : bs[k]? = some b) (hb : b.status = .triggered) :
    inOrder (setStatusAt bs k .completed) = true := by
  induction bs generalizing k with
  | nil => simp at hk
  | cons c rest ih =>
    cases k with
    | zero =>
      simp only [List.getElem?_cons_zero, Option.some.injEq] at hk
      subst hk
      simp only [inOrder, hb] at h
      simp only [setStatusAt, inOrder, if_true]
      exact inOrder_of_allPending rest (by simpa using h)
    | succ k =>
      simp only [List.getElem?_cons_succ] at hk
      by_cases hc : c.status = .completed
      · simp only [inOrder, hc, if_true] at h
        simp only [setStatusAt, inOrder, hc, if_true]
        exact ih k h hk
      · simp only [inOrder, hc, if_false, List.all_eq_true, decide_eq_true_eq] at h
        have := h b (List.getElem?_mem hk)
        rw [hb] at this
        exact absurd this (by decide)

/-! ## Store updates -/

theorem storeGet_mem (store : List (Nat × Ingestion)) (id : Nat) (ing : Ingestion)
    (h : storeGet store id = some ing) : (id, ing) ∈ store := by
  induction store with
  | nil => simp [storeGet] at h
  | cons p rest ih =>
    obtain ⟨k, w⟩ := p
    unfold storeGet at h
    by_cases hk : k = id
    · simp only [hk, if_true, Option.some.injEq] at h
      simp [hk, h]
    · simp only [hk, if_false] at h
      exact List.mem_cons_of_mem _ (ih h)

theorem storeGet_fresh (store : List (Nat × Ingestion)) (n : Nat)
    (h : ∀ p ∈ store, p.1 < n) : storeGet store n = none := by
  cases hg : storeGet store n with
  | none => rfl
  | some ing =>
    have := h _ (storeGet_mem store n ing hg)
    simp at this

theorem storeSet_fresh (store : List (Nat × Ingestion)) (id : Nat) (v : Ingestion)
    (h : ∀ p ∈ store, p.1 < id) : storeSet store id v = store ++ [(id, v)] := by
  induction store with
  | nil => rfl
  | cons p rest ih =>
    obtain ⟨k, w⟩ := p
    have hk : k ≠ id := by
      have := h (k, w) (List.mem_cons_self _ _)
      simp only at this
      omega
    simp only [storeSet, hk, if_false, List.cons_append]
    rw [ih (fun q hq => h q (List.mem_cons_of_mem _ hq))]

theorem mem_storeModify (store : List (Nat × Ingestion)) (id : Nat) (f : Ingestion → Ingestion)
    (p : Nat × Ingestion) (h : p ∈ storeModify store id f) :
    p ∈ store ∨ ∃ ing, storeGet store id = some ing ∧ p = (id, f ing) := by
  induction store with
  | nil => simp [storeModify] at h
  | cons q rest ih =>
    obtain ⟨k, w⟩ := q
    unfold storeModify at h
    by_cases hk : k = id
    · simp only [hk, if_true, List.mem_cons] at h
      rcases h with h | h
      · exact Or.inr ⟨w, by simp [storeGet, hk], by simpa using h⟩
      · exact Or.inl (List.mem_cons_of_mem _ h)
    · simp only [hk, if_false, List.mem_cons] at h
      rcases h with h | h
      · exact Or.inl (by simp [h])
      · rcases ih h with h1 | ⟨ing, hg, hp⟩
        · exact Or.inl (List.mem_cons_of_mem _ h1)
        · exact Or.inr ⟨ing, by simp [storeGet, hk, hg], hp⟩

theorem storeModify_of_none (store : List (Nat × Ingestion)) (id : Nat)
    (f : Ingestion → Ingestion) (h : storeGet store id = none) :
    storeModify store id f = store := by
  induction store with
  | nil => rfl
  | cons q rest ih =>
    obtain ⟨k, w⟩ := q
    unfold storeGet at h
    by_cases hk : k = id
    · simp [hk] at h
    · simp only [hk, if_false] at h
      simp [storeModify, hk, ih h]

theorem storeTriggered_storeModify (store : List (Nat × Ingestion)) (id : Nat)
    (f : Ingestion → Ingestion) (ing : Ingestion) (h : storeGet store id = some ing) :
    storeTriggered (storeModify store id f) + trigCount ing.batches =
      storeTriggered store + trigCount (f ing).batches := by
  induction store with
  | nil => simp [storeGet] at h
  | cons q rest ih =>
    obtain ⟨k, w⟩ := q
    unfold storeGet at h
    by_cases hk : k = id
    · simp only [hk, if_true, Option.some.injEq] at h
      subst h
      simp only [storeModify, hk, if_true, storeTriggered, List.map_cons, List.sum_cons]
      omega
    · simp only [hk, if_false] at h
      have := ih h
      simp only [storeTriggered] at this
      simp only [storeModify, hk, if_false, storeTriggered, List.map_cons, List.sum_cons]
      omega

theorem batchesOf_setBatchStatus (store : List (Nat × Ingestion)) (id k : Nat) (st : BStatus)
    (id2 : Nat) :
    batchesOf (setBatchStatus store id k st) id2 =
      if id = id2 then setStatusAt (batchesOf store id2) k st else batchesOf store id2 := by
  unfold batchesOf setBatchStatus
  rw [storeGet_storeModify]
  by_cases h : id = id2
  · simp only [h, if_true]
    cases storeGet store id2 with
    | none => simp [setStatusAt]
    | some ing => simp
  · simp [h]

theorem batchesOf_setIngestionStatus (store : List (Nat × Ingestion)) (id : Nat) (st : BStatus)
    (id2 : Nat) : batchesOf (setIngestionStatus store id st) id2 = batchesOf store id2 := by
  unfold batchesOf setIngestionStatus
  rw [storeGet_storeModify]
  by_cases h : id = id2
  · simp only [h, if_true]
    cases storeGet store id2 with
    | none => rfl
    | some ing => simp
  · simp [h]

theorem isSome_storeGet_storeModify (store : List (Nat × Ingestion)) (id id2 : Nat)
    (f : Ingestion → Ingestion) :
    (storeGet (storeModify store id f) id2).isSome = (storeGet store id2).isSome := by
  rw [storeGet_storeModify]
  by_cases h : id = id2 <;> simp [h]

theorem storeTriggered_setIngestionStatus (store : List (Nat × Ingestion)) (id : Nat)
    (st : BStatus) : storeTriggered (setIngestionStatus store id st) = storeTriggered store := by
  unfold setIngestionStatus
  cases hg : storeGet store id with
  | none => rw [storeModify_of_none _ _ _ hg]
  | some ing =>
    have := storeTriggered_storeModify store id (fun ing => { ing with status := st }) ing hg
    simp only at this
    omega

/-- A property of the stored ingestions that a store update keeps when the updated
ingestion keeps it. -/
theorem forall_storeModify (store : List (Nat × Ingestion)) (id : Nat)
    (f : Ingestion → Ingestion) (P : Nat × Ingestion → Prop) (h : ∀ p ∈ store, P p)
    (hf : ∀ ing, storeGet store id = some ing → P (id, ing) → P (id, f ing)) :
    ∀ p ∈ storeModify store id f, P p := by
  intro p hp
  rcases mem_storeModify store id f p hp with h1 | ⟨ing, hg, rfl⟩
  · exact h p h1
  · exact hf ing hg (h _ (storeGet_mem store id ing hg))

/-! ## The queue order -/

theorem entryLe_of_admittedOrder (a b : QueueEntry) (h : admittedOrder a b) : entryLe a b := by
  unfold admittedOrder at h
  unfold entryLe compareEntries
  split_ifs <;> omega

theorem weight_le_of_entryLe (a b : QueueEntry) (h : entryLe a b) :
    PRIORITY_WEIGHTS b.priority ≤ PRIORITY_WEIGHTS a.priority := by
  unfold entryLe compareEntries at h
  split_ifs at h <;> omega

theorem weight_le_of_admittedOrder (a b : QueueEntry) (h : admittedOrder a b) :
    PRIORITY_WEIGHTS b.priority ≤ PRIORITY_WEIGHTS a.priority := by
  unfold admittedOrder at h
  omega

theorem queueOrder_of_admittedOrder (a b : QueueEntry) (h : admittedOrder a b) :
    queueOrder a b := by
  unfold admittedOrder at h
  unfold queueOrder
  omega

theorem pairwise_orderedInsert (a : QueueEntry) (l : List QueueEntry)
    (hl : l.Pairwise admittedOrder)
    (ha : ∀ b ∈ l, admittedOrder a b ∨ PRIORITY_WEIGHTS a.priority < PRIORITY_WEIGHTS b.priority) :
    (l.orderedInsert entryLe a).Pairwise admittedOrder := by
  induction l with
  | nil => simp
  | cons b rest ih =>
    rw [List.pairwise_cons] at hl
    by_cases hab : entryLe a b
    · rw [List.orderedInsert, if_pos hab, List.pairwise_cons]
      refine ⟨?_, List.pairwise_cons.mpr hl⟩
      have hw := weight_le_of_entryLe a b hab
      intro c hc
      rcases ha c hc with h | h
      · exact h
      · rcases List.mem_cons.mp hc with rfl | hc2
        · omega
        · have := weight_le_of_admittedOrder b c (hl.1 c hc2)
          omega
    · rw [List.orderedInsert, if_neg hab, List.pairwise_cons]
      refine ⟨?_, ih hl.2 (fun c hc => ha c (List.mem_cons_of_mem _ hc))⟩
      intro c hc
      rcases (List.mem_orderedInsert entryLe).mp hc with rfl | hc2
      · rcases ha b (List.mem_cons_self _ _) with h | h
        · exact absurd (entryLe_of_admittedOrder _ _ h) hab
        · exact Or.inl h
      · exact hl.1 c hc2

theorem pairwise_sortQueue_push (q : List QueueEntry) (e : QueueEntry)
    (hq : q.Pairwise admittedOrder)
    (he : ∀ a ∈ q, a.timestamp ≤ e.timestamp ∧ a.ingestionId < e.ingestionId) :
    (sortQueue (q ++ [e])).Pairwise admittedOrder := by
  unfold sortQueue
  induction q with
  | nil => simp
  | cons a rest ih =>
    rw [List.pairwise_cons] at hq
    simp only [List.cons_append, List.insertionSort]
    apply pairwise_orderedInsert
    · exact ih hq.2 (fun b hb => he b (List.mem_cons_of_mem _ hb))
    · intro b hb
      rw [List.mem_insertionSort] at hb
      have hb2 : b ∈ rest ++ [e] := hb
      rw [List.mem_append, List.mem_singleton] at hb2
      rcases hb2 with hb | rfl
      · exact Or.inl (hq.1 b hb)
      · have := he a (List.mem_cons_self _ _)
        unfold admittedOrder
        omega

theorem mem_sortQueue (q : List QueueEntry) (e : QueueEntry) : e ∈ sortQueue q ↔ e ∈ q := by
  unfold sortQueue
  exact List.mem_insertionSort entryLe

theorem length_sortQueue (q : List QueueEntry) : (sortQueue q).length = q.length := by
  unfold sortQueue
  exact List.length_insertionSort entryLe q

/-! ## The invariant is kept by every step -/

theorem trigCount_of_storeTriggered (store : List (Nat × Ingestion))
    (h : storeTriggered store = 0) : ∀ p ∈ store, trigCount p.2.batches = 0 := by
  induction store with
  | nil => simp
  | cons q rest ih =>
    simp only [storeTriggered, List.map_cons, List.sum_cons] at h
    intro p hp
    rcases List.mem_cons.mp hp with rfl | hp
    · omega
    · exact ih (by simp only [storeTriggered]; omega) p hp

theorem storeGet_of_firstPending (store : List (Nat × Ingestion)) (id k : Nat)
    (h : firstPending (batchesOf store id) = some k) :
    ∃ ing, storeGet store id = some ing ∧ firstPending ing.batches = some k := by
  unfold batchesOf at h
  cases hg : storeGet store id with
  | none => simp [hg, firstPending] at h
  | some ing => exact ⟨ing, rfl, by simpa [hg] using h⟩

theorem storeGet_of_getElem? (store : List (Nat × Ingestion)) (id k : Nat) (b : Batch)
    (h : (batchesOf store id)[k]? = some b) :
    ∃ ing, storeGet store id = some ing ∧ ing.batches[k]? = some b := by
  unfold batchesOf at h
  cases hg : storeGet store id with
  | none => simp [hg] at h
  | some ing => exact ⟨ing, rfl, by simpa [hg] using h⟩

theorem baseInv_of_eq (s t : State) (h : BaseInv s)
    (h1 : t.ingestionStore = s.ingestionStore) (h2 : t.priorityQueue = s.priorityQueue)
    (h3 : t.lastProcessedTime = s.lastProcessedTime) (h4 : t.now = s.now)
    (h5 : t.nextUuid = s.nextUuid) (h6 : t.dispatchLog = s.dispatchLog) : BaseInv t := by
  obtain ⟨a1, a2, a3, a4, a5, a6, a7, a8⟩ := h
  constructor
  · rw [h1, h5]; exact a1
  · rw [h1]; exact a2
  · rw [h1, h2]; exact a3
  · rw [h2]; exact a4
  · rw [h2, h4, h5]; exact a5
  · rw [h3, h4]; exact a6
  · rw [h6]; exact a7
  · rw [h3, h6]; exact a8

theorem inv_dispatch (s : State) (id k : Nat) (hb : BaseInv s) (hf : s.inFlight = [])
    (h0 : storeTriggered s.ingestionStore = 0) (hq : s.priorityQueue ≠ [])
    (hk : firstPending (batchesOf s.ingestionStore id) = some k)
    (hr : s.lastProcessedTime + RATE_LIMIT_MS ≤ s.now) : Inv (dispatch s id k) := by
  obtain ⟨ing, hg, hfp⟩ := storeGet_of_firstPending _ _ _ hk
  obtain ⟨b, hbk, hbs⟩ := firstPending_some _ _ hfp
  have ht0 : trigCount ing.batches = 0 :=
    trigCount_of_storeTriggered _ h0 _ (storeGet_mem _ _ _ hg)
  have hR : RATE_LIMIT_MS = 5000 := rfl
  refine ⟨⟨?_, ?_, ?_, ?_, ?_, ?_, ?_, ?_⟩, ?_⟩
  · exact forall_storeModify _ _ _ (fun p => p.1 < s.nextUuid) hb.keys (fun _ _ h => h)
  · refine forall_storeModify _ _ _ (fun p => inOrder p.2.batches = true) hb.shape ?_
    intro ing2 hg2 h2
    rw [hg] at hg2
    cases hg2
    exact inOrder_dispatch _ _ h2 hfp ht0
  · intro e he
    simp only [dispatch, setBatchStatus, isSome_storeGet_storeModify]
    exact hb.stored e he
  · exact hb.sorted
  · exact hb.bound
  · exact le_refl _
  · simp only [dispatch]
    rw [List.chain'_cons']
    refine ⟨?_, hb.spaced⟩
    intro t ht
    have := hb.logged t (List.mem_of_mem_head? ht)
    omega
  · intro t ht
    simp only [dispatch, List.mem_cons] at ht
    simp only [dispatch]
    rcases ht with rfl | ht
    · exact le_refl _
    · have := hb.logged t ht
      omega
  · simp only [WorkerInv, dispatch, hf, List.nil_append]
    refine ⟨hq, ?_, ?_⟩
    · have := storeTriggered_storeModify s.ingestionStore id
        (fun ing => { ing with batches := setStatusAt ing.batches k .triggered }) ing hg
      simp only at this
      have h1 := trigCount_dispatch ing.batches k b hbk (by rw [hbs]; decide)
      unfold setBatchStatus
      omega
    · rw [batchesOf_setBatchStatus, if_pos rfl, getElem?_setStatusAt]
      have : (batchesOf s.ingestionStore id)[k]? = some b := by
        simpa [batchesOf, hg] using hbk
      rw [this]
      exact ⟨_, rfl, rfl⟩

theorem baseInv_tail (s : State) (e : QueueEntry) (rest : List QueueEntry)
    (h : BaseInv { s with priorityQueue := e :: rest }) :
    BaseInv { s with priorityQueue := rest } :=
  ⟨h.keys, h.shape, fun x hx => h.stored x (List.mem_cons_of_mem _ hx),
    (List.pairwise_cons.mp h.sorted).2, fun x hx => h.bound x (List.mem_cons_of_mem _ hx),
    h.clock, h.spaced, h.logged⟩

theorem inv_processNextBatch (s : State) (q : List QueueEntry)
    (hb : BaseInv { s with priorityQueue := q }) (hf : s.inFlight = [])
    (h0 : storeTriggered s.ingestionStore = 0) : Inv (processNextBatch s q) := by
  induction q with
  | nil =>
    refine ⟨hb, ?_⟩
    simp [WorkerInv, processNextBatch, hf, h0]
  | cons e rest ih =>
    unfold processNextBatch
    have hst := hb.stored e (List.mem_cons_self _ _)
    cases hg : storeGet s.ingestionStore e.ingestionId with
    | none => simp [hg] at hst
    | some ing =>
      simp only
      cases hfp : firstPending ing.batches with
      | none => exact ih (baseInv_tail s e rest hb)
      | some k =>
        simp only
        have hk : firstPending (batchesOf s.ingestionStore e.ingestionId) = some k := by
          simpa [batchesOf, hg] using hfp
        by_cases hr : s.now - s.lastProcessedTime < RATE_LIMIT_MS
        · rw [if_pos hr]
          refine ⟨baseInv_of_eq _ _ hb rfl rfl rfl rfl rfl rfl, ?_⟩
          simp only [WorkerInv, hf, List.nil_append]
          refine ⟨by simp, h0, hk, ?_⟩
          omega
        · rw [if_neg hr]
          exact inv_dispatch _ _ _ hb hf h0 (by simp) hk (by simp only; omega)

theorem inv_complete (s : State) (id k : Nat) (b : Batch) (hb : BaseInv s)
    (hf : s.inFlight = []) (h1 : storeTriggered s.ingestionStore = 1)
    (hk : (batchesOf s.ingestionStore id)[k]? = some b) (hs : b.status = .triggered) :
    Inv (complete s id k) := by
  obtain ⟨ing, hg, hbk⟩ := storeGet_of_getElem? _ _ _ _ hk
  have hkeys : ∀ p ∈ setBatchStatus s.ingestionStore id k .completed, p.1 < s.nextUuid :=
    forall_storeModify _ _ _ (fun p => p.1 < s.nextUuid) hb.keys (fun _ _ h => h)
  have hshape : ∀ p ∈ setBatchStatus s.ingestionStore id k .completed,
      inOrder p.2.batches = true := by
    refine forall_storeModify _ _ _ (fun p => inOrder p.2.batches = true) hb.shape ?_
    intro ing2 hg2 h2
    rw [hg] at hg2
    cases hg2
    exact inOrder_complete _ _ b h2 hbk hs
  have h0 : storeTriggered (setBatchStatus s.ingestionStore id k .completed) = 0 := by
    have := storeTriggered_storeModify s.ingestionStore id
      (fun ing => { ing with batches := setStatusAt ing.batches k .completed }) ing hg
    simp only at this
    have h2 := trigCount_complete ing.batches k b hbk hs
    unfold setBatchStatus
    omega
  unfold complete
  simp only
  split_ifs with hall hany
  · apply inv_processNextBatch
    · refine ⟨?_, ?_, ?_, ?_, ?_, hb.clock, hb.spaced, hb.logged⟩
      · exact forall_storeModify _ _ _ (fun p => p.1 < s.nextUuid) hkeys (fun _ _ h => h)
      · exact forall_storeModify _ _ _ (fun p => inOrder p.2.batches = true) hshape
          (fun _ _ h => h)
      · intro e he
        simp only [setIngestionStatus, setBatchStatus, isSome_storeGet_storeModify]
        exact hb.stored e (List.mem_of_mem_tail he)
      · exact hb.sorted.tail
      · exact fun e he => hb.bound e (List.mem_of_mem_tail he)
    · exact hf
    · simp only [storeTriggered_setIngestionStatus, h0]
  · apply inv_processNextBatch
    · refine ⟨?_, ?_, ?_, hb.sorted, hb.bound, hb.clock, hb.spaced, hb.logged⟩
      · exact forall_storeModify _ _ _ (fun p => p.1 < s.nextUuid) hkeys (fun _ _ h => h)
      · exact forall_storeModify _ _ _ (fun p => inOrder p.2.batches = true) hshape
          (fun _ _ h => h)
      · intro e he
        simp only [setIngestionStatus, setBatchStatus, isSome_storeGet_storeModify]
        exact hb.stored e he
    · exact hf
    · simp only [storeTriggered_setIngestionStatus, h0]
  · apply inv_processNextBatch
    · refine ⟨hkeys, hshape, ?_, hb.sorted, hb.bound, hb.clock, hb.spaced, hb.logged⟩
      intro e he
      simp only [setBatchStatus, isSome_storeGet_storeModify]
      exact hb.stored e he
    · exact hf
    · exact h0

theorem trigCount_of_allPending (bs : List Batch)
    (h : ∀ b ∈ bs, b.status = .yet_to_start) : trigCount bs = 0 := by
  unfold trigCount
  rw [List.countP_eq_zero]
  intro b hb
  rw [h b hb]
  decide

theorem storeTriggered_append (s1 s2 : List (Nat × Ingestion)) :
    storeTriggered (s1 ++ s2) = storeTriggered s1 + storeTriggered s2 := by
  simp [storeTriggered]

theorem batchesOf_storeSet_other (store : List (Nat × Ingestion)) (id id2 : Nat)
    (v : Ingestion) (hfresh : ∀ p ∈ store, p.1 < id)
    (h2 : (storeGet store id2).isSome = true) :
    batchesOf (storeSet store id v) id2 = batchesOf store id2 := by
  have hne : ¬ id = id2 := by
    intro h
    subst h
    rw [storeGet_fresh store id hfresh] at h2
    simp at h2
  unfold batchesOf
  rw [storeGet_storeSet, if_neg hne]

theorem inv_acceptRequest (s : State) (l : List JVal) (p : Priority) (h : Inv s) :
    Inv (acceptRequest s l p) := by
  obtain ⟨hb, hw⟩ := h
  have hset := storeSet_fresh s.ingestionStore s.nextUuid
    { status := .yet_to_start, batches := batchLoop l l.length 0 (s.nextUuid + 1),
      priority := p, timestamp := s.now } hb.keys
  have hpend := status_batchLoop l l.length 0 (s.nextUuid + 1)
  have hST : storeTriggered (storeSet s.ingestionStore s.nextUuid
      { status := .yet_to_start, batches := batchLoop l l.length 0 (s.nextUuid + 1),
        priority := p, timestamp := s.now }) = storeTriggered s.ingestionStore := by
    rw [hset, storeTriggered_append]
    simp [storeTriggered, trigCount_of_allPending _ hpend]
  have hbase : BaseInv { s with
      ingestionStore := storeSet s.ingestionStore s.nextUuid
        { status := .yet_to_start, batches := batchLoop l l.length 0 (s.nextUuid + 1),
          priority := p, timestamp := s.now }
      priorityQueue := sortQueue (s.priorityQueue ++
        [{ ingestionId := s.nextUuid, priority := p, timestamp := s.now }])
      nextUuid := s.nextUuid + 1 + (batchLoop l l.length 0 (s.nextUuid + 1)).length } := by
    refine ⟨?_, ?_, ?_, ?_, ?_, hb.clock, hb.spaced, hb.logged⟩
    · intro q hq
      simp only [hset, List.mem_append, List.mem_singleton] at hq
      simp only
      rcases hq with hq | rfl
      · have := hb.keys q hq
        omega
      · simp only
        omega
    · intro q hq
      simp only [hset, List.mem_append, List.mem_singleton] at hq
      rcases hq with hq | rfl
      · exact hb.shape q hq
      · apply inOrder_of_allPending
        simpa using hpend
    · intro e he
      simp only [mem_sortQueue, List.mem_append, List.mem_singleton] at he
      simp only [storeGet_storeSet]
      rcases he with he | rfl
      · split_ifs
        · rfl
        · exact hb.stored e he
      · simp
    · apply pairwise_sortQueue_push _ _ hb.sorted
      intro a ha
      exact hb.bound a ha
    · intro e he
      simp only [mem_sortQueue, List.mem_append, List.mem_singleton] at he
      simp only
      rcases he with he | rfl
      · have := hb.bound e he
        omega
      · simp only
        omega
  unfold acceptRequest
  simp only
  split_ifs with hlen
  · rw [length_sortQueue, List.length_append, List.length_singleton] at hlen
    have hq : s.priorityQueue = [] := List.length_eq_zero.mp (by omega)
    cases hfl : s.inFlight with
    | nil =>
      simp only [WorkerInv, hfl] at hw
      refine inv_processNextBatch _ _ (baseInv_of_eq _ _ hbase rfl rfl rfl rfl rfl rfl) rfl ?_
      rw [hST]
      exact hw.2
    | cons w rest =>
      exfalso
      cases rest with
      | nil =>
        cases w <;> simp only [WorkerInv, hfl] at hw <;> exact hw.1 hq
      | cons w2 rest2 =>
        simp only [WorkerInv, hfl] at hw
  · refine ⟨hbase, ?_⟩
    have hne : sortQueue (s.priorityQueue ++
        [{ ingestionId := s.nextUuid, priority := p, timestamp := s.now }]) ≠ [] := by
      intro h0
      have := length_sortQueue (s.priorityQueue ++
        [{ ingestionId := s.nextUuid, priority := p, timestamp := s.now }])
      rw [h0, List.length_append, List.length_singleton] at this
      simp at this
    rw [length_sortQueue, List.length_append, List.length_singleton] at hlen
    cases hfl : s.inFlight with
    | nil =>
      simp only [WorkerInv, hfl] at hw
      rw [hw.1] at hlen
      simp at hlen
    | cons w rest =>
      cases rest with
      | nil =>
        cases w with
        | rateWait id k wake =>
          simp only [WorkerInv, hfl] at hw ⊢
          obtain ⟨_, h0, hk, hr⟩ := hw
          refine ⟨hne, by rw [hST]; exact h0, ?_, hr⟩
          obtain ⟨ing, hg, _⟩ := storeGet_of_firstPending _ _ _ hk
          rw [batchesOf_storeSet_other _ _ _ _ hb.keys (by simp [hg])]
          exact hk
        | execWait id k wake =>
          simp only [WorkerInv, hfl] at hw ⊢
          obtain ⟨_, h1, b, hk, hs⟩ := hw
          refine ⟨hne, by rw [hST]; exact h1, b, ?_, hs⟩
          obtain ⟨ing, hg, _⟩ := storeGet_of_getElem? _ _ _ _ hk
          rw [batchesOf_storeSet_other _ _ _ _ hb.keys (by simp [hg])]
          exact hk
      | cons w2 rest2 =>
        simp only [WorkerInv, hfl] at hw

theorem inv_resume (s : State) (i : Nat) (h : Inv s) : Inv (resume s i) := by
  obtain ⟨hb, hw⟩ := h
  unfold resume
  cases hfl : s.inFlight with
  | nil => simpa using ⟨hb, hw⟩
  | cons w rest =>
    cases rest with
    | cons w2 rest2 => simp only [WorkerInv, hfl] at hw
    | nil =>
      cases i with
      | succ j => simpa using ⟨hb, hw⟩
      | zero =>
        cases w with
        | rateWait id k wake =>
          simp only [WorkerInv, hfl] at hw
          obtain ⟨hq, h0, hk, hr⟩ := hw
          simp only [List.getElem?_cons_zero, List.eraseIdx_cons_zero]
          split_ifs with hwake
          · exact inv_dispatch _ _ _ (baseInv_of_eq _ _ hb rfl rfl rfl rfl rfl rfl) rfl h0 hq hk
              (by simp only; omega)
          · refine ⟨hb, ?_⟩
            simp only [WorkerInv, hfl]
            exact ⟨hq, h0, hk, hr⟩
        | execWait id k wake =>
          simp only [WorkerInv, hfl] at hw
          obtain ⟨hq, h1, b, hk, hs⟩ := hw
          simp only [List.getElem?_cons_zero, List.eraseIdx_cons_zero]
          split_ifs with hwake
          · exact inv_complete _ _ _ b (baseInv_of_eq _ _ hb rfl rfl rfl rfl rfl rfl) rfl h1 hk hs
          · refine ⟨hb, ?_⟩
            simp only [WorkerInv, hfl]
            exact ⟨hq, h1, b, hk, hs⟩

theorem inv_step (s : State) (e : Event) (h : Inv s) : Inv (step s e) := by
  cases e with
  | ingest ids priority =>
    simp only [step]
    unfold ingest
    split
    · split_ifs
      · exact h
      · exact h
      · exact inv_acceptRequest _ _ _ h
    · exact h
  | timeout i => exact inv_resume s i h
  | tick dt =>
    obtain ⟨hb, hw⟩ := h
    refine ⟨⟨hb.keys, hb.shape, hb.stored, hb.sorted, ?_, ?_, hb.spaced, hb.logged⟩, ?_⟩
    · intro e he
      have := hb.bound e he
      simp only [step]
      omega
    · have := hb.clock
      simp only [step]
      omega
    · unfold WorkerInv at hw ⊢
      exact hw

theorem inv_init (t0 : Nat) : Inv (init t0) := by
  refine ⟨⟨?_, ?_, ?_, ?_, ?_, ?_, ?_, ?_⟩, ?_⟩ <;> simp [init, WorkerInv, storeTriggered]

theorem inv_foldl (es : List Event) (s : State) (h : Inv s) : Inv (es.foldl step s) := by
  induction es generalizing s with
  | nil => exact h
  | cons e rest ih => exact ih _ (inv_step s e h)

theorem inv_exec (t0 : Nat) (es : List Event) : Inv (exec t0 es) :=
  inv_foldl es _ (inv_init t0)

/-! ## Partition (C1) -/

/-- C1. For every accepted request (so the id sequence `l` has length at least 1), the
`/ingest` handler answers with the new id, and the batches it stored under that id
hold, concatenated in order, exactly `l`; there are `ceil(l.length / 3)` of them;
and each holds at most 3 ids. -/
theorem partition_complete (s : State) (ids : Option (List JVal)) (priority : String)
    (l : List JVal) (p : Priority) (h : accepted ids priority = some (l, p)) :
    (ingest s ids priority).2 = .ok s.nextUuid ∧
    (idsOf (ingest s ids priority).1.ingestionStore s.nextUuid).flatten = l ∧
    (batchesOf (ingest s ids priority).1.ingestionStore s.nextUuid).length =
      (l.length + 2) / 3 ∧
    ∀ b ∈ batchesOf (ingest s ids priority).1.ingestionStore s.nextUuid,
      b.ids.length ≤ 3 := by
  rw [ingest_of_accepted s ids priority l p h]
  have hids := idsOf_acceptRequest s l p
  refine ⟨rfl, ?_, ?_, ?_⟩
  · simp only [hids]
    rw [flatten_batchLoop l l.length 0 (s.nextUuid + 1) (by omega)]
    rfl
  · have := congrArg List.length hids
    simp only [idsOf, List.length_map] at this
    simp only [this]
    rw [length_batchLoop l l.length 0 (s.nextUuid + 1) (by omega)]
    rfl
  · intro b hb
    have hmem : b.ids ∈ idsOf (acceptRequest s l p).ingestionStore s.nextUuid :=
      List.mem_map.mpr ⟨b, hb, rfl⟩
    rw [hids] at hmem
    obtain ⟨c, hc, hcb⟩ := List.mem_map.mp hmem
    rw [← hcb]
    exact (size_batchLoop l l.length 0 (s.nextUuid + 1) c hc).2

/-- Witness for C1: ids `[1,2,3,4,5]` with priority `MEDIUM` on the initial state give
exactly the batches `[1,2,3]` and `[4,5]`. -/
theorem partition_complete_witness :
    accepted (some [.num 1, .num 2, .num 3, .num 4, .num 5]) "MEDIUM" =
      some ([.num 1, .num 2, .num 3, .num 4, .num 5], .MEDIUM) ∧
    idsOf (ingest (init 0) (some [.num 1, .num 2, .num 3, .num 4, .num 5])
      "MEDIUM").1.ingestionStore 0 = [[.num 1, .num 2, .num 3], [.num 4, .num 5]] ∧
    ((ingest (init 0) (some [.num 1, .num 2, .num 3, .num 4, .num 5]) "MEDIUM").2 =
        .ok (init 0).nextUuid ∧
      (idsOf (ingest (init 0) (some [.num 1, .num 2, .num 3, .num 4, .num 5])
        "MEDIUM").1.ingestionStore (init 0).nextUuid).flatten =
        [.num 1, .num 2, .num 3, .num 4, .num 5] ∧
      (batchesOf (ingest (init 0) (some [.num 1, .num 2, .num 3, .num 4, .num 5])
        "MEDIUM").1.ingestionStore (init 0).nextUuid).length =
        ([JVal.num 1, .num 2, .num 3, .num 4, .num 5].length + 2) / 3 ∧
      ∀ b ∈ batchesOf (ingest (init 0) (some [.num 1, .num 2, .num 3, .num 4, .num 5])
        "MEDIUM").1.ingestionStore (init 0).nextUuid, b.ids.length ≤ 3) :=
  ⟨by decide, by decide,
    partition_complete (init 0) (some [.num 1, .num 2, .num 3, .num 4, .num 5]) "MEDIUM"
      [.num 1, .num 2, .num 3, .num 4, .num 5] .MEDIUM (by decide)⟩

/-! ## Priority precedence (C2)

Lines 119-121 test `allCompleted` on the captured `ingestion` and then remove the
head of the queue.  The head is the captured ingestion's entry only if no entry
was sorted in front of it while the batch was running; C2, C7 and C8 fail at inputs
where one was. -/

/-- C2 at a failing input.  MEDIUM `[1]` (key 0) is running; LOW `[2]` (key 2) and
then HIGH `[3]` (key 4) are admitted, the LOW one still fully pending when the HIGH
one arrives.  When the MEDIUM batch completes, `shift()` removes the HIGH entry;
the LOW batch is dispatched at the rate-limit deadline while the HIGH batch is
`'yet_to_start'`, and after the LOW batch completes the loop stops with the HIGH
batch never dispatched. -/
theorem high_priority_overtaken :
    statusesOf (exec 10000 [request [1] "MEDIUM", request [2] "LOW",
      request [3] "HIGH"]).ingestionStore 2 = [.yet_to_start] ∧
    (exec 10000 [request [1] "MEDIUM", request [2] "LOW",
      request [3] "HIGH"]).priorityQueue.map (fun e => e.ingestionId) = [4, 0, 2] ∧
    (exec 10000 [request [1] "MEDIUM", request [2] "LOW", request [3] "HIGH", .tick 1000,
      .timeout 0]).priorityQueue.map (fun e => e.ingestionId) = [2] ∧
    statusesOf (exec 10000 [request [1] "MEDIUM", request [2] "LOW", request [3] "HIGH",
      .tick 1000, .timeout 0, .tick 4000, .timeout 0]).ingestionStore 2 = [.triggered] ∧
    statusesOf (exec 10000 [request [1] "MEDIUM", request [2] "LOW", request [3] "HIGH",
      .tick 1000, .timeout 0, .tick 4000, .timeout 0]).ingestionStore 4 = [.yet_to_start] ∧
    (exec 10000 [request [1] "MEDIUM", request [2] "LOW", request [3] "HIGH", .tick 1000,
      .timeout 0, .tick 4000, .timeout 0, .tick 1000, .timeout 0]).inFlight = [] ∧
    statusesOf (exec 10000 [request [1] "MEDIUM", request [2] "LOW", request [3] "HIGH",
      .tick 1000, .timeout 0, .tick 4000, .timeout 0, .tick 1000,
      .timeout 0]).ingestionStore 4 = [.yet_to_start] := by
  decide

/-- The scenario of C2 as `test.js` runs it (Test 4 after Test 1): with MEDIUM
`[1,2,3,4,5]` (key 0) in progress, LOW `[6,7,8]` (key 3) is submitted and 1 s later
HIGH `[9,10,11]` (key 5); 6 s after that the HIGH batch is `'triggered'` and the LOW
batch is `'yet_to_start'`. -/
theorem priority_scenario_test4 :
    statusesOf (exec 10000 [request [1, 2, 3, 4, 5] "MEDIUM", request [6, 7, 8] "LOW",
      .tick 1000, request [9, 10, 11] "HIGH", .tick 2000, .timeout 0, .tick 2000,
      .timeout 0, .tick 2000]).ingestionStore 5 = [.triggered] ∧
    statusesOf (exec 10000 [request [1, 2, 3, 4, 5] "MEDIUM", request [6, 7, 8] "LOW",
      .tick 1000, request [9, 10, 11] "HIGH", .tick 2000, .timeout 0, .tick 2000,
      .timeout 0, .tick 2000]).ingestionStore 3 = [.yet_to_start] ∧
    (exec 10000 [request [1, 2, 3, 4, 5] "MEDIUM", request [6, 7, 8] "LOW",
      .tick 1000, request [9, 10, 11] "HIGH", .tick 2000, .timeout 0, .tick 2000,
      .timeout 0, .tick 2000]).now = 17000 := by
  decide

/-- The same scenario on an idle system: the LOW batch is dispatched on admission,
the HIGH entry is removed when it completes, and 6 s after the HIGH submission the
LOW batch is `'completed'`, the HIGH batch `'yet_to_start'` and the loop idle. -/
theorem priority_scenario_idle :
    statusesOf (exec 10000 [request [6, 7, 8] "LOW", .tick 1000, request [9, 10, 11] "HIGH",
      .tick 2000, .timeout 0, .tick 4000]).ingestionStore 0 = [.completed] ∧
    statusesOf (exec 10000 [request [6, 7, 8] "LOW", .tick 1000, request [9, 10, 11] "HIGH",
      .tick 2000, .timeout 0, .tick 4000]).ingestionStore 2 = [.yet_to_start] ∧
    (exec 10000 [request [6, 7, 8] "LOW", .tick 1000, request [9, 10, 11] "HIGH",
      .tick 2000, .timeout 0, .tick 4000]).inFlight = [] := by
  decide

/-- A second way the HIGH ingestion is overtaken, without any wrong `shift()`: the
batch found at line 93 is dispatched after the rate-limit wait of line 104 without
a new look at the queue.  MEDIUM `[1]` (key 0) completes at 11000 and the first
batch of LOW `[2,3,4,5]` (key 2) waits for the deadline 15000; HIGH `[6]` (key 5)
is admitted at 12000 and sorted to the head; at 15000 the LOW batch is
`'triggered'` and the HIGH batch `'yet_to_start'`. -/
theorem priority_scenario_rate_wait :
    statusesOf (exec 10000 [request [1] "MEDIUM", request [2, 3, 4, 5] "LOW", .tick 1000,
      .timeout 0, .tick 1000, request [6] "HIGH"]).ingestionStore 2 =
      [.yet_to_start, .yet_to_start] ∧
    (exec 10000 [request [1] "MEDIUM", request [2, 3, 4, 5] "LOW", .tick 1000,
      .timeout 0, .tick 1000, request [6] "HIGH"]).priorityQueue.map
      (fun e => e.ingestionId) = [5, 2] ∧
    (exec 10000 [request [1] "MEDIUM", request [2, 3, 4, 5] "LOW", .tick 1000,
      .timeout 0, .tick 1000, request [6] "HIGH"]).inFlight = [.rateWait 2 0 15000] ∧
    statusesOf (exec 10000 [request [1] "MEDIUM", request [2, 3, 4, 5] "LOW", .tick 1000,
      .timeout 0, .tick 1000, request [6] "HIGH", .tick 3000, .timeout 0]).ingestionStore 2 =
      [.triggered, .yet_to_start] ∧
    statusesOf (exec 10000 [request [1] "MEDIUM", request [2, 3, 4, 5] "LOW", .tick 1000,
      .timeout 0, .tick 1000, request [6] "HIGH", .tick 3000, .timeout 0]).ingestionStore 5 =
      [.yet_to_start] := by
  decide

/-! ## Rate limit (C3) -/

theorem atMostOneDispatch_processNextBatch (s : State) (q : List QueueEntry) :
    (processNextBatch s q).now = s.now ∧ atMostOneDispatch s (processNextBatch s q) := by
  induction q with
  | nil => exact ⟨rfl, Or.inl ⟨rfl, rfl⟩⟩
  | cons e rest ih =>
    unfold processNextBatch
    split
    · exact ⟨rfl, Or.inl ⟨rfl, rfl⟩⟩
    · split
      · exact ih
      · split_ifs with hr
        · exact ⟨rfl, Or.inl ⟨rfl, rfl⟩⟩
        · refine ⟨rfl, Or.inr ⟨rfl, rfl, ?_⟩⟩
          simp only [dispatch]
          omega

theorem atMostOneDispatch_complete (s : State) (id k : Nat) :
    (complete s id k).now = s.now ∧ atMostOneDispatch s (complete s id k) := by
  unfold complete
  simp only
  split_ifs <;> exact atMostOneDispatch_processNextBatch _ _

theorem atMostOneDispatch_acceptRequest (s : State) (l : List JVal) (p : Priority) :
    (acceptRequest s l p).now = s.now ∧ atMostOneDispatch s (acceptRequest s l p) := by
  unfold acceptRequest
  simp only
  split_ifs
  · exact atMostOneDispatch_processNextBatch _ _
  · exact ⟨rfl, Or.inl ⟨rfl, rfl⟩⟩

theorem atMostOneDispatch_resume (s : State) (i : Nat) (h : Inv s) :
    atMostOneDispatch s (resume s i) := by
  obtain ⟨hb, hw⟩ := h
  unfold resume
  cases hfl : s.inFlight with
  | nil => exact Or.inl ⟨rfl, rfl⟩
  | cons w rest =>
    cases rest with
    | cons w2 rest2 => simp only [WorkerInv, hfl] at hw
    | nil =>
      cases i with
      | succ j => exact Or.inl ⟨rfl, rfl⟩
      | zero =>
        cases w with
        | rateWait id k wake =>
          simp only [WorkerInv, hfl] at hw
          simp only [List.getElem?_cons_zero, List.eraseIdx_cons_zero]
          split_ifs with hwake
          · refine Or.inr ⟨rfl, rfl, ?_⟩
            simp only [dispatch]
            omega
          · exact Or.inl ⟨rfl, rfl⟩
        | execWait id k wake =>
          simp only [List.getElem?_cons_zero, List.eraseIdx_cons_zero]
          split_ifs with hwake
          · exact (atMostOneDispatch_complete _ id k).2
          · exact Or.inl ⟨rfl, rfl⟩

theorem atMostOneDispatch_step (s : State) (e : Event) (h : Inv s) :
    atMostOneDispatch s (step s e) := by
  cases e with
  | ingest ids priority =>
    simp only [step]
    unfold ingest
    split
    · split_ifs
      · exact Or.inl ⟨rfl, rfl⟩
      · exact Or.inl ⟨rfl, rfl⟩
      · exact (atMostOneDispatch_acceptRequest _ _ _).2
    · exact Or.inl ⟨rfl, rfl⟩
  | timeout i => exact atMostOneDispatch_resume s i h
  | tick dt => exact Or.inl ⟨rfl, rfl⟩

/-- C3. In every execution, any two consecutive dispatch starts (adjacent entries of
the dispatch history, newest first) are at least `RATE_LIMIT_MS` = 5000 ms apart;
and every step either leaves `lastProcessedTime` and the history alone or runs
line 107 once, recording the current time, at least 5000 ms after the previous
value of `lastProcessedTime`. -/
theorem rate_limit_spacing (t0 : Nat) (es : List Event) :
    RATE_LIMIT_MS = 5000 ∧
    (exec t0 es).dispatchLog.Chain' (fun t2 t1 => RATE_LIMIT_MS ≤ t2 - t1) ∧
    ∀ e : Event, atMostOneDispatch (exec t0 es) (step (exec t0 es) e) :=
  ⟨rfl, (inv_exec t0 es).base.spaced, fun e => atMostOneDispatch_step _ e (inv_exec t0 es)⟩

/-- Scenario of C3 (Test 5) on an idle system: two MEDIUM ingestions `[12,13,14]` and
`[15,16,17]` are submitted back to back at time 10000; timers fire when due.  After
6 s the first batch is `'completed'`, the second is `'triggered'` and still
running, and the two dispatch starts are 5000 ms apart. -/
theorem rate_limit_scenario :
    statusesOf (exec 10000 [request [12, 13, 14] "MEDIUM", request [15, 16, 17] "MEDIUM",
      .tick 3000, .timeout 0, .tick 2000, .timeout 0, .tick 1000]).ingestionStore 0 =
      [.completed] ∧
    statusesOf (exec 10000 [request [12, 13, 14] "MEDIUM", request [15, 16, 17] "MEDIUM",
      .tick 3000, .timeout 0, .tick 2000, .timeout 0, .tick 1000]).ingestionStore 2 =
      [.triggered] ∧
    (exec 10000 [request [12, 13, 14] "MEDIUM", request [15, 16, 17] "MEDIUM",
      .tick 3000, .timeout 0, .tick 2000, .timeout 0, .tick 1000]).inFlight =
      [.execWait 2 0 18000] ∧
    (exec 10000 [request [12, 13, 14] "MEDIUM", request [15, 16, 17] "MEDIUM",
      .tick 3000, .timeout 0, .tick 2000, .timeout 0, .tick 1000]).now = 16000 ∧
    (exec 10000 [request [12, 13, 14] "MEDIUM", request [15, 16, 17] "MEDIUM",
      .tick 3000, .timeout 0, .tick 2000, .timeout 0, .tick 1000]).dispatchLog =
      [15000, 10000] ∧
    (exec 10000 [request [12, 13, 14] "MEDIUM", request [15, 16, 17] "MEDIUM",
      .tick 3000, .timeout 0, .tick 2000, .timeout 0, .tick 1000]).dispatchLog.Chain'
      (fun t2 t1 => RATE_LIMIT_MS ≤ t2 - t1) :=
  ⟨by decide, by decide, by decide, by decide, by decide,
    (rate_limit_spacing 10000 [request [12, 13, 14] "MEDIUM", request [15, 16, 17] "MEDIUM",
      .tick 3000, .timeout 0, .tick 2000, .timeout 0, .tick 1000]).2.1⟩

/-! ## Status derivation (C4) -/

/-- C4. For a stored ingestion the status handler answers with the id, the batches,
and an overall status that is `'triggered'` if some batch is `'triggered'`, else
`'completed'` if every batch is `'completed'`, else `'yet_to_start'`; the overall
status is the same for any ingestion with the same batch statuses, whatever its
stored `status` field. -/
theorem status_derivation (s : State) (id : Nat) (ing : Ingestion)
    (h : storeGet s.ingestionStore id = some ing) :
    getStatus s id = .ok id (overallStatus ing) ing.batches ∧
    ((∃ b ∈ ing.batches, b.status = .triggered) → overallStatus ing = .triggered) ∧
    ((¬ ∃ b ∈ ing.batches, b.status = .triggered) →
      (∀ b ∈ ing.batches, b.status = .completed) → overallStatus ing = .completed) ∧
    ((¬ ∃ b ∈ ing.batches, b.status = .triggered) →
      (¬ ∀ b ∈ ing.batches, b.status = .completed) → overallStatus ing = .yet_to_start) ∧
    ∀ ing2 : Ingestion,
      ing2.batches.map (fun b => b.status) = ing.batches.map (fun b => b.status) →
      overallStatus ing2 = overallStatus ing := by
  refine ⟨by simp [getStatus, h], ?_, ?_, ?_, ?_⟩
  · intro hex
    have : ing.batches.any (fun b => decide (b.status = .triggered)) = true := by
      simpa using hex
    simp [overallStatus, this]
  · intro hno hall
    have h1 : ing.batches.any (fun b => decide (b.status = .triggered)) = false := by
      simpa using hno
    have h2 : ing.batches.all (fun b => decide (b.status = .completed)) = true := by
      simpa using hall
    simp [overallStatus, h1, h2]
  · intro hno hall
    have h1 : ing.batches.any (fun b => decide (b.status = .triggered)) = false := by
      simpa using hno
    have h2 : ing.batches.all (fun b => decide (b.status = .completed)) = false := by
      simpa using hall
    simp [overallStatus, h1, h2]
  · intro ing2 heq
    have hany : ∀ bs : List Batch, bs.any (fun b => decide (b.status = .triggered)) =
        (bs.map (fun b => b.status)).any (fun st => decide (st = .triggered)) := by
      intro bs
      induction bs with
      | nil => rfl
      | cons b rest ih => simp only [List.any_cons, List.map_cons, ih]
    have hall : ∀ bs : List Batch, bs.all (fun b => decide (b.status = .completed)) =
        (bs.map (fun b => b.status)).all (fun st => decide (st = .completed)) := by
      intro bs
      induction bs with
      | nil => rfl
      | cons b rest ih => simp only [List.all_cons, List.map_cons, ih]
    simp only [overallStatus, hany, hall, heq]

/-- Witness for C4: after admitting ids `[1,2,3,4]`, the first batch is `'triggered'`
and the handler reports `'triggered'` although the stored field is `'yet_to_start'`. -/
theorem status_derivation_witness :
    storeGet (exec 5000 [request [1, 2, 3, 4] "LOW"]).ingestionStore 0 =
      some { status := .yet_to_start,
             batches := [{ batch_id := 1, ids := [.num 1, .num 2, .num 3], status := .triggered },
                         { batch_id := 2, ids := [.num 4], status := .yet_to_start }],
             priority := .LOW, timestamp := 5000 } ∧
    getStatus (exec 5000 [request [1, 2, 3, 4] "LOW"]) 0 =
      .ok 0 .triggered
        [{ batch_id := 1, ids := [.num 1, .num 2, .num 3], status := .triggered },
         { batch_id := 2, ids := [.num 4], status := .yet_to_start }] :=
  ⟨by decide,
    (status_derivation (exec 5000 [request [1, 2, 3, 4] "LOW"]) 0
      { status := .yet_to_start,
        batches := [{ batch_id := 1, ids := [.num 1, .num 2, .num 3], status := .triggered },
                    { batch_id := 2, ids := [.num 4], status := .yet_to_start }],
        priority := .LOW, timestamp := 5000 } (by decide)).1⟩

/-! ## Status over time (C5) -/

theorem mem_setStatusAt (bs : List Batch) (k : Nat) (st : BStatus) (b : Batch)
    (h : b ∈ setStatusAt bs k st) : b ∈ bs ∨ b.status = st := by
  induction bs generalizing k with
  | nil => simp [setStatusAt] at h
  | cons c rest ih =>
    cases k with
    | zero =>
      simp only [setStatusAt, List.mem_cons] at h
      rcases h with rfl | h
      · exact Or.inr rfl
      · exact Or.inl (List.mem_cons_of_mem _ h)
    | succ j =>
      simp only [setStatusAt, List.mem_cons] at h
      rcases h with rfl | h
      · exact Or.inl (List.mem_cons_self _ _)
      · rcases ih j h with h1 | h1
        · exact Or.inl (List.mem_cons_of_mem _ h1)
        · exact Or.inr h1

theorem fullyCompleted_setCompleted (store : List (Nat × Ingestion)) (id id2 k : Nat)
    (h : fullyCompleted store id) :
    fullyCompleted (setBatchStatus store id2 k .completed) id := by
  obtain ⟨ing, hg, hall⟩ := h
  unfold fullyCompleted setBatchStatus
  rw [storeGet_storeModify, hg]
  by_cases hid : id2 = id
  · refine ⟨_, by simp only [hid, if_true, Option.map_some']; rfl, ?_⟩
    intro b hb
    rcases mem_setStatusAt _ _ _ _ hb with h1 | h1
    · exact hall b h1
    · exact h1
  · exact ⟨ing, by simp [hid], hall⟩

theorem fullyCompleted_setIngestionStatus (store : List (Nat × Ingestion)) (id id2 : Nat)
    (st : BStatus) (h : fullyCompleted store id) :
    fullyCompleted (setIngestionStatus store id2 st) id := by
  obtain ⟨ing, hg, hall⟩ := h
  unfold fullyCompleted setIngestionStatus
  rw [storeGet_storeModify, hg]
  by_cases hid : id2 = id
  · exact ⟨{ ing with status := st }, by simp only [hid, if_true, Option.map_some'], hall⟩
  · exact ⟨ing, by simp [hid], hall⟩

theorem fullyCompleted_dispatch (s : State) (id id2 k : Nat)
    (h : fullyCompleted s.ingestionStore id)
    (hk : firstPending (batchesOf s.ingestionStore id2) = some k) :
    fullyCompleted (dispatch s id2 k).ingestionStore id := by
  obtain ⟨ing, hg, hall⟩ := h
  have hid : ¬ id2 = id := by
    intro hid
    subst hid
    obtain ⟨ing2, hg2, hfp⟩ := storeGet_of_firstPending _ _ _ hk
    rw [hg] at hg2
    cases hg2
    obtain ⟨b, hb, hs⟩ := firstPending_some _ _ hfp
    have := hall b (List.getElem?_mem hb)
    rw [hs] at this
    exact absurd this (by decide)
  refine ⟨ing, ?_, hall⟩
  simp only [dispatch, setBatchStatus]
  rw [storeGet_storeModify, if_neg hid]
  exact hg

theorem fullyCompleted_processNextBatch (s : State) (q : List QueueEntry) (id : Nat)
    (h : fullyCompleted s.ingestionStore id) :
    fullyCompleted (processNextBatch s q).ingestionStore id := by
  induction q with
  | nil => exact h
  | cons e rest ih =>
    unfold processNextBatch
    cases hg : storeGet s.ingestionStore e.ingestionId with
    | none => exact h
    | some ing =>
      simp only
      cases hfp : firstPending ing.batches with
      | none => exact ih
      | some k =>
        simp only
        split_ifs
        · exact h
        · exact fullyCompleted_dispatch _ id e.ingestionId k h
            (by simpa [batchesOf, hg] using hfp)

theorem fullyCompleted_complete (s : State) (id id2 k : Nat)
    (h : fullyCompleted s.ingestionStore id) :
    fullyCompleted (complete s id2 k).ingestionStore id := by
  have h1 := fullyCompleted_setCompleted _ id id2 k h
  unfold complete
  simp only
  split_ifs
  · exact fullyCompleted_processNextBatch _ _ id
      (fullyCompleted_setIngestionStatus _ id id2 _ h1)
  · exact fullyCompleted_processNextBatch _ _ id
      (fullyCompleted_setIngestionStatus _ id id2 _ h1)
  · exact fullyCompleted_processNextBatch _ _ id h1

theorem fullyCompleted_acceptRequest (s : State) (l : List JVal) (p : Priority) (id : Nat)
    (hinv : Inv s) (h : fullyCompleted s.ingestionStore id) :
    fullyCompleted (acceptRequest s l p).ingestionStore id := by
  obtain ⟨ing, hg, hall⟩ := h
  have hne : ¬ s.nextUuid = id := by
    intro hid
    rw [← hid, storeGet_fresh _ _ hinv.base.keys] at hg
    cases hg
  have h1 : fullyCompleted (storeSet s.ingestionStore s.nextUuid
      { status := .yet_to_start, batches := batchLoop l l.length 0 (s.nextUuid + 1),
        priority := p, timestamp := s.now }) id :=
    ⟨ing, by rw [storeGet_storeSet, if_neg hne]; exact hg, hall⟩
  unfold acceptRequest
  simp only
  split_ifs
  · exact fullyCompleted_processNextBatch _ _ id h1
  · exact h1

theorem fullyCompleted_resume (s : State) (i id : Nat) (hinv : Inv s)
    (h : fullyCompleted s.ingestionStore id) :
    fullyCompleted (resume s i).ingestionStore id := by
  obtain ⟨hb, hw⟩ := hinv
  unfold resume
  cases hfl : s.inFlight with
  | nil => exact h
  | cons w rest =>
    cases rest with
    | cons w2 rest2 => simp only [WorkerInv, hfl] at hw
    | nil =>
      cases i with
      | succ j => exact h
      | zero =>
        cases w with
        | rateWait id2 k wake =>
          simp only [WorkerInv, hfl] at hw
          simp only [List.getElem?_cons_zero, List.eraseIdx_cons_zero]
          split_ifs
          · exact fullyCompleted_dispatch _ id id2 k h hw.2.2.1
          · exact h
        | execWait id2 k wake =>
          simp only [List.getElem?_cons_zero, List.eraseIdx_cons_zero]
          split_ifs
          · exact fullyCompleted_complete _ id id2 k h
          · exact h

theorem fullyCompleted_step (s : State) (e : Event) (id : Nat) (hinv : Inv s)
    (h : fullyCompleted s.ingestionStore id) :
    fullyCompleted (step s e).ingestionStore id := by
  cases e with
  | ingest ids priority =>
    simp only [step]
    unfold ingest
    split
    · split_ifs
      · exact h
      · exact h
      · exact fullyCompleted_acceptRequest _ _ _ id hinv h
    · exact h
  | timeout i => exact fullyCompleted_resume s i id hinv h
  | tick dt => exact h

theorem fullyCompleted_foldl (es : List Event) (s : State) (id : Nat) (hinv : Inv s)
    (h : fullyCompleted s.ingestionStore id) :
    fullyCompleted (es.foldl step s).ingestionStore id := by
  induction es generalizing s with
  | nil => exact h
  | cons e rest ih => exact ih _ (inv_step s e hinv) (fullyCompleted_step s e id hinv h)

theorem overallStatus_completed (ing : Ingestion) :
    overallStatus ing = .completed ↔ ∀ b ∈ ing.batches, b.status = .completed := by
  unfold overallStatus
  constructor
  · intro h
    split_ifs at h with h1 h2
    simpa using h2
  · intro h
    have h1 : ing.batches.any (fun b => decide (b.status = .triggered)) = false := by
      rw [List.any_eq_false]
      intro b hb
      rw [h b hb]
      decide
    have h2 : ing.batches.all (fun b => decide (b.status = .completed)) = true := by
      simpa using h
    simp [h1, h2]

theorem statusOf_completed (s : State) (id : Nat) :
    statusOf (getStatus s id) = some .completed ↔ fullyCompleted s.ingestionStore id := by
  unfold getStatus fullyCompleted
  cases hg : storeGet s.ingestionStore id with
  | none => simp [statusOf]
  | some ing => simp [statusOf, overallStatus_completed]

/-- C5, the part the code does not satisfy: ids `[1,2,3,4]` are admitted on an idle
system and the status query answers `'triggered'`; 3 s later the first batch
completes, the second waits on the rate limit, and the status query answers
`'yet_to_start'`. -/
theorem status_regresses :
    statusOf (getStatus (exec 10000 [request [1, 2, 3, 4] "LOW"]) 0) = some .triggered ∧
    statusOf (getStatus (exec 10000 [request [1, 2, 3, 4] "LOW", .tick 3000, .timeout 0]) 0) =
      some .yet_to_start ∧
    statusesOf (exec 10000 [request [1, 2, 3, 4] "LOW", .tick 3000,
      .timeout 0]).ingestionStore 0 = [.completed, .yet_to_start] := by
  decide

/-- C5 as amended. In every execution, if a status query answers `'completed'` for an
ingestion then every batch of that ingestion is `'completed'`, and every status
query for it after any further events answers `'completed'`. -/
theorem completed_status_final (t0 : Nat) (es more : List Event) (id : Nat)
    (h : statusOf (getStatus (exec t0 es) id) = some .completed) :
    (∀ b ∈ batchesOf (exec t0 es).ingestionStore id, b.status = .completed) ∧
    statusOf (getStatus (exec t0 (es ++ more)) id) = some .completed := by
  rw [statusOf_completed] at h
  constructor
  · obtain ⟨ing, hg, hall⟩ := h
    simpa [batchesOf, hg] using hall
  · rw [statusOf_completed]
    unfold exec
    rw [List.foldl_append]
    exact fullyCompleted_foldl more _ id (inv_exec t0 es) h

/-- Witness for the amended C5: `[1,2,3]` completes after 3 s and is still reported
`'completed'` after another ingestion has been admitted and run. -/
theorem completed_status_final_witness :
    statusOf (getStatus (exec 10000 [request [1, 2, 3] "LOW", .tick 3000, .timeout 0]) 0) =
      some .completed ∧
    ((∀ b ∈ batchesOf (exec 10000 [request [1, 2, 3] "LOW", .tick 3000,
        .timeout 0]).ingestionStore 0, b.status = .completed) ∧
      statusOf (getStatus (exec 10000 ([request [1, 2, 3] "LOW", .tick 3000, .timeout 0] ++
        [request [4] "HIGH", .tick 2000, .timeout 0])) 0) = some .completed) :=
  ⟨by decide,
    completed_status_final 10000 [request [1, 2, 3] "LOW", .tick 3000, .timeout 0]
      [request [4] "HIGH", .tick 2000, .timeout 0] 0 (by decide)⟩

/-! ## Queue order (C6) -/

/-- C6. In every reachable state `priorityQueue` is ordered by `queueOrder`: any entry
placed before another has greater weight, or equal weight and a timestamp not
greater; in particular this holds for every pair of adjacent entries. -/
theorem queue_order_invariant (t0 : Nat) (es : List Event) :
    (exec t0 es).priorityQueue.Pairwise queueOrder ∧
    (exec t0 es).priorityQueue.Chain' queueOrder := by
  have h : (exec t0 es).priorityQueue.Pairwise queueOrder :=
    (inv_exec t0 es).base.sorted.imp (fun {a b} hab => queueOrder_of_admittedOrder a b hab)
  exact ⟨h, List.Pairwise.chain' h⟩

/-! ## Stable FIFO tie-break (C7) -/

/-- Supporting fact for C7 (the part that holds): in every reachable state, of two
queue entries with equal weight the one placed first was admitted first. -/
theorem queue_fifo (t0 : Nat) (es : List Event) :
    (exec t0 es).priorityQueue.Pairwise admittedOrder :=
  (inv_exec t0 es).base.sorted

/-- C7 at a failing input.  LOW `[1]` (key 0) is running; MEDIUM `[2]` (key 2) and then
MEDIUM `[3]` (key 4) are admitted and queued in that order.  When the LOW batch
completes, `shift()` removes the entry of key 2; the batch of key 4, admitted
later, is dispatched at the rate-limit deadline, and the batch of key 2 is never
dispatched. -/
theorem fifo_dispatch_violated :
    (exec 10000 [request [1] "LOW", request [2] "MEDIUM",
      request [3] "MEDIUM"]).priorityQueue.map (fun e => e.ingestionId) = [2, 4, 0] ∧
    (exec 10000 [request [1] "LOW", request [2] "MEDIUM", request [3] "MEDIUM", .tick 1000,
      .timeout 0]).priorityQueue.map (fun e => e.ingestionId) = [4, 0] ∧
    statusesOf (exec 10000 [request [1] "LOW", request [2] "MEDIUM", request [3] "MEDIUM",
      .tick 1000, .timeout 0, .tick 4000, .timeout 0]).ingestionStore 4 = [.triggered] ∧
    statusesOf (exec 10000 [request [1] "LOW", request [2] "MEDIUM", request [3] "MEDIUM",
      .tick 1000, .timeout 0, .tick 4000, .timeout 0]).ingestionStore 2 = [.yet_to_start] ∧
    (exec 10000 [request [1] "LOW", request [2] "MEDIUM", request [3] "MEDIUM", .tick 1000,
      .timeout 0, .tick 4000, .timeout 0, .tick 1000, .timeout 0]).inFlight = [] ∧
    statusesOf (exec 10000 [request [1] "LOW", request [2] "MEDIUM", request [3] "MEDIUM",
      .tick 1000, .timeout 0, .tick 4000, .timeout 0, .tick 1000,
      .timeout 0]).ingestionStore 2 = [.yet_to_start] := by
  decide

/-! ## Removal from the queue (C8) -/

/-- C8 at a failing input.  LOW `[1]` (key 0) is admitted on an idle system and
dispatched at once; HIGH `[2]` (key 2) is admitted while that batch runs and is
sorted to the head.  When the LOW batch completes after 1 s, `shift()` removes the
HIGH entry, the drained LOW entry follows, and the loop stops: the HIGH
ingestion has a `'yet_to_start'` batch and no queue entry. -/
theorem queue_entry_removed_early :
    (exec 10000 [request [1] "LOW", request [2] "HIGH", .tick 1000]).priorityQueue.map
      (fun e => e.ingestionId) = [2, 0] ∧
    statusesOf (exec 10000 [request [1] "LOW", request [2] "HIGH",
      .tick 1000]).ingestionStore 2 = [.yet_to_start] ∧
    (exec 10000 [request [1] "LOW", request [2] "HIGH", .tick 1000,
      .timeout 0]).priorityQueue = [] ∧
    (exec 10000 [request [1] "LOW", request [2] "HIGH", .tick 1000,
      .timeout 0]).inFlight = [] ∧
    statusesOf (exec 10000 [request [1] "LOW", request [2] "HIGH", .tick 1000,
      .timeout 0]).ingestionStore 2 = [.yet_to_start] := by
  decide

/-! ## In-order drain (C9) -/

theorem inOrder_index (bs : List Batch) (k : Nat) (b : Batch) (h : inOrder bs = true)
    (hk : bs[k + 1]? = some b) (hb : b.status ≠ .yet_to_start) :
    ∃ b0, bs[k]? = some b0 ∧ b0.status = .completed := by
  induction bs generalizing k with
  | nil => simp at hk
  | cons c rest ih =>
    simp only [List.getElem?_cons_succ] at hk
    by_cases hc : c.status = .completed
    · simp only [inOrder, hc, if_true] at h
      cases k with
      | zero => exact ⟨c, by simp, hc⟩
      | succ j =>
        obtain ⟨b0, h0, hs⟩ := ih j h hk
        exact ⟨b0, by simpa using h0, hs⟩
    · simp only [inOrder, hc, if_false, List.all_eq_true, decide_eq_true_eq] at h
      exact absurd (h b (List.getElem?_mem hk)) hb

theorem inOrder_batchesOf (s : State) (h : Inv s) (id : Nat) :
    inOrder (batchesOf s.ingestionStore id) = true := by
  unfold batchesOf
  cases hg : storeGet s.ingestionStore id with
  | none => rfl
  | some ing => exact h.base.shape _ (storeGet_mem _ _ _ hg)

/-- C9. In every reachable state and for every ingestion, the batch statuses read as
`'completed'` ones, then at most one `'triggered'`, then `'yet_to_start'` ones
(`inOrder`); in particular if batch `k + 1` is `'triggered'` or `'completed'` then
batch `k` is `'completed'`. -/
theorem in_order_drain (t0 : Nat) (es : List Event) (id k : Nat) (b : Batch)
    (hk : (batchesOf (exec t0 es).ingestionStore id)[k + 1]? = some b)
    (hb : b.status = .triggered ∨ b.status = .completed) :
    inOrder (batchesOf (exec t0 es).ingestionStore id) = true ∧
    ∃ b0, (batchesOf (exec t0 es).ingestionStore id)[k]? = some b0 ∧
      b0.status = .completed := by
  have h := inOrder_batchesOf _ (inv_exec t0 es) id
  refine ⟨h, inOrder_index _ k b h hk ?_⟩
  rcases hb with hb | hb <;> rw [hb] <;> decide

/-- Witness for C9: ids `[1,2,3,4]` are admitted, the first batch runs for 3 s and
completes, and 2 s later the second batch is dispatched. -/
theorem in_order_drain_witness :
    (batchesOf (exec 5000 [request [1, 2, 3, 4] "LOW", .tick 3000, .timeout 0, .tick 2000,
        .timeout 0]).ingestionStore 0)[0 + 1]? =
      some { batch_id := 2, ids := [.num 4], status := .triggered } ∧
    (inOrder (batchesOf (exec 5000 [request [1, 2, 3, 4] "LOW", .tick 3000, .timeout 0,
        .tick 2000, .timeout 0]).ingestionStore 0) = true ∧
      ∃ b0, (batchesOf (exec 5000 [request [1, 2, 3, 4] "LOW", .tick 3000, .timeout 0,
          .tick 2000, .timeout 0]).ingestionStore 0)[0]? = some b0 ∧
        b0.status = .completed) :=
  ⟨by decide,
    in_order_drain 5000 [request [1, 2, 3, 4] "LOW", .tick 3000, .timeout 0, .tick 2000,
      .timeout 0] 0 0 { batch_id := 2, ids := [.num 4], status := .triggered }
      (by decide) (Or.inl rfl)⟩

/-! ## Single worker (C10) -/

/-- C10. In every reachable state at most one invocation of `processNextBatch` is
suspended (at the rate-limit wait or at the execution wait), and at most one batch
of the whole store is `'triggered'`. -/
theorem single_worker (t0 : Nat) (es : List Event) :
    (exec t0 es).inFlight.length ≤ 1 ∧ storeTriggered (exec t0 es).ingestionStore ≤ 1 := by
  have hw := (inv_exec t0 es).worker
  unfold WorkerInv at hw
  split at hw
  · rename_i hfl
    simp [hfl, hw.2]
  · rename_i hfl
    simp [hfl, hw.2.1]
  · rename_i hfl
    simp [hfl, hw.2.1]
  · exact absurd hw id

/-! ## Batch statuses step by step -/

theorem getElem?_setStatusAt_ne (bs : List Batch) (k j : Nat) (st : BStatus) (h : k ≠ j) :
    (setStatusAt bs k st)[j]? = bs[j]? := by
  induction bs generalizing k j with
  | nil => simp [setStatusAt]
  | cons b rest ih =>
    cases k with
    | zero =>
      cases j with
      | zero => exact absurd rfl h
      | succ j => simp [setStatusAt]
    | succ k =>
      cases j with
      | zero => simp [setStatusAt]
      | succ j =>
        simp only [setStatusAt, List.getElem?_cons_succ]
        exact ih k j (fun hk => h (by rw [hk]))

theorem statusAt_setBatchStatus (store : List (Nat × Ingestion)) (id k : Nat) (st : BStatus)
    (i j : Nat) :
    statusAt (setBatchStatus store id k st) i j =
      if id = i ∧ k = j then (statusAt store i j).map (fun _ => st) else statusAt store i j := by
  unfold statusAt
  rw [batchesOf_setBatchStatus]
  by_cases hi : id = i
  · by_cases hk : k = j
    · subst hk
      simp only [hi, if_true, and_self, getElem?_setStatusAt, Option.map_map]
      rfl
    · simp only [hi, if_true, hk, and_false, if_false, getElem?_setStatusAt_ne _ _ _ _ hk]
  · simp [hi]

theorem statusAt_setIngestionStatus (store : List (Nat × Ingestion)) (id : Nat) (st : BStatus)
    (i j : Nat) : statusAt (setIngestionStatus store id st) i j = statusAt store i j := by
  unfold statusAt
  rw [batchesOf_setIngestionStatus]

theorem statusAt_of_firstPending (store : List (Nat × Ingestion)) (id k : Nat)
    (h : firstPending (batchesOf store id) = some k) :
    statusAt store id k = some .yet_to_start := by
  obtain ⟨b, hb, hs⟩ := firstPending_some _ _ h
  simp [statusAt, hb, hs]

theorem processNextBatch_store (s : State) (q : List QueueEntry) :
    (processNextBatch s q).ingestionStore = s.ingestionStore ∨
    ∃ id k, firstPending (batchesOf s.ingestionStore id) = some k ∧
      (processNextBatch s q).ingestionStore = setBatchStatus s.ingestionStore id k .triggered := by
  induction q with
  | nil => exact Or.inl rfl
  | cons e rest ih =>
    unfold processNextBatch
    cases hg : storeGet s.ingestionStore e.ingestionId with
    | none => exact Or.inl rfl
    | some ing =>
      simp only
      cases hfp : firstPending ing.batches with
      | none => exact ih
      | some k =>
        simp only
        split_ifs
        · exact Or.inl rfl
        · exact Or.inr ⟨e.ingestionId, k, by simpa [batchesOf, hg] using hfp, rfl⟩

/-- Effect on one batch status of marking the first `'yet_to_start'` batch of an
ingestion `'triggered'`. -/
theorem statusStep_setTriggered (store : List (Nat × Ingestion)) (id k i j : Nat)
    (a : BStatus) (hk : firstPending (batchesOf store id) = some k)
    (ha : statusAt store i j = some a) :
    ∃ a2, statusAt (setBatchStatus store id k .triggered) i j = some a2 ∧
      (a2 = a ∨ (a = .yet_to_start ∧ a2 = .triggered)) := by
  rw [statusAt_setBatchStatus]
  by_cases h : id = i ∧ k = j
  · obtain ⟨rfl, rfl⟩ := h
    rw [statusAt_of_firstPending _ _ _ hk] at ha
    cases ha
    exact ⟨.triggered, by simp [statusAt_of_firstPending _ _ _ hk], Or.inr ⟨rfl, rfl⟩⟩
  · exact ⟨a, by rw [if_neg h]; exact ha, Or.inl rfl⟩

theorem statusStep_processNextBatch (s : State) (q : List QueueEntry) (i j : Nat)
    (a : BStatus) (ha : statusAt s.ingestionStore i j = some a) :
    ∃ a2, statusAt (processNextBatch s q).ingestionStore i j = some a2 ∧
      (a2 = a ∨ (a = .yet_to_start ∧ a2 = .triggered)) := by
  rcases processNextBatch_store s q with h | ⟨id, k, hk, h⟩
  · rw [h]
    exact ⟨a, ha, Or.inl rfl⟩
  · rw [h]
    exact statusStep_setTriggered _ id k i j a hk ha

theorem statusStep_complete (s : State) (id k i j : Nat) (a : BStatus)
    (hk : statusAt s.ingestionStore id k = some .triggered)
    (ha : statusAt s.ingestionStore i j = some a) :
    ∃ a2, statusAt (complete s id k).ingestionStore i j = some a2 ∧ statusStep a a2 := by
  have h1 : statusAt (setBatchStatus s.ingestionStore id k .completed) i j =
      some (if id = i ∧ k = j then .completed else a) := by
    rw [statusAt_setBatchStatus, ha]
    split_ifs <;> rfl
  have key : ∀ s2 : State, statusAt s2.ingestionStore i j =
      some (if id = i ∧ k = j then .completed else a) →
      ∃ a2, statusAt (processNextBatch s2 s2.priorityQueue).ingestionStore i j = some a2 ∧
        statusStep a a2 := by
    intro s2 h2
    obtain ⟨a2, h3, h4⟩ := statusStep_processNextBatch s2 s2.priorityQueue i j _ h2
    refine ⟨a2, h3, ?_⟩
    by_cases h : id = i ∧ k = j
    · obtain ⟨rfl, rfl⟩ := h
      rw [hk] at ha
      cases ha
      simp only [and_self, if_true] at h4
      rcases h4 with h4 | ⟨h4, _⟩
      · rw [h4]
        exact Or.inr (Or.inr ⟨rfl, rfl⟩)
      · cases h4
    · rw [if_neg h] at h4
      rcases h4 with h4 | ⟨h4, h5⟩
      · exact Or.inl h4.symm
      · exact Or.inr (Or.inl ⟨h4, h5⟩)
  unfold complete
  simp only
  split_ifs
  · exact key _ (by simpa only [statusAt_setIngestionStatus] using h1)
  · exact key _ (by simpa only [statusAt_setIngestionStatus] using h1)
  · exact key _ h1

theorem batchesOf_storeSet (store : List (Nat × Ingestion)) (id i : Nat) (v : Ingestion) :
    batchesOf (storeSet store id v) i = if id = i then v.batches else batchesOf store i := by
  unfold batchesOf
  rw [storeGet_storeSet]
  split_ifs <;> rfl

theorem processNextBatch_store_mem (s : State) (q : List QueueEntry) :
    (processNextBatch s q).ingestionStore = s.ingestionStore ∨
    ∃ e ∈ q, ∃ k, (processNextBatch s q).ingestionStore =
      setBatchStatus s.ingestionStore e.ingestionId k .triggered := by
  induction q with
  | nil => exact Or.inl rfl
  | cons e rest ih =>
    unfold processNextBatch
    cases hg : storeGet s.ingestionStore e.ingestionId with
    | none => exact Or.inl rfl
    | some ing =>
      simp only
      cases hfp : firstPending ing.batches with
      | none =>
        rcases ih with h | ⟨e2, he2, k, h⟩
        · exact Or.inl h
        · exact Or.inr ⟨e2, List.mem_cons_of_mem _ he2, k, h⟩
      | some k =>
        simp only
        split_ifs
        · exact Or.inl rfl
        · exact Or.inr ⟨e, List.mem_cons_self _ _, k, rfl⟩

/-- The `/ingest` handler leaves the batches of every other key as they are. -/
theorem batchesOf_acceptRequest (s : State) (l : List JVal) (p : Priority) (i : Nat)
    (hi : s.nextUuid ≠ i) :
    batchesOf (acceptRequest s l p).ingestionStore i = batchesOf s.ingestionStore i := by
  unfold acceptRequest
  simp only
  split_ifs with hlen
  · rw [length_sortQueue, List.length_append, List.length_singleton] at hlen
    have hq : s.priorityQueue = [] := List.length_eq_zero.mp (by omega)
    rcases processNextBatch_store_mem
      { s with
        ingestionStore := storeSet s.ingestionStore s.nextUuid
          { status := .yet_to_start, batches := batchLoop l l.length 0 (s.nextUuid + 1),
            priority := p, timestamp := s.now }
        priorityQueue := sortQueue (s.priorityQueue ++
          [{ ingestionId := s.nextUuid, priority := p, timestamp := s.now }])
        nextUuid := s.nextUuid + 1 + (batchLoop l l.length 0 (s.nextUuid + 1)).length }
      (sortQueue (s.priorityQueue ++
          [{ ingestionId := s.nextUuid, priority := p, timestamp := s.now }]))
      with h | ⟨e, he, k, h⟩
    · rw [h]
      simp only [batchesOf_storeSet, if_neg hi]
    · rw [h]
      rw [mem_sortQueue, hq, List.nil_append, List.mem_singleton] at he
      subst he
      simp only [batchesOf_setBatchStatus, batchesOf_storeSet, if_neg hi]
  · simp only [batchesOf_storeSet, if_neg hi]

theorem batchesOf_ingest (s : State) (ids : Option (List JVal)) (priority : String) (i : Nat)
    (hi : s.nextUuid ≠ i) :
    batchesOf (ingest s ids priority).1.ingestionStore i = batchesOf s.ingestionStore i := by
  unfold ingest
  split
  · split_ifs
    · rfl
    · rfl
    · exact batchesOf_acceptRequest _ _ _ i hi
  · rfl

theorem lt_nextUuid_of_stored (s : State) (h : Inv s) (i : Nat)
    (hi : (storeGet s.ingestionStore i).isSome = true) : i < s.nextUuid := by
  cases hg : storeGet s.ingestionStore i with
  | none => simp [hg] at hi
  | some ing => exact h.base.keys _ (storeGet_mem _ _ _ hg)

theorem stored_of_statusAt (store : List (Nat × Ingestion)) (i j : Nat) (a : BStatus)
    (h : statusAt store i j = some a) : (storeGet store i).isSome = true := by
  unfold statusAt batchesOf at h
  cases hg : storeGet store i with
  | none => simp [hg] at h
  | some ing => rfl

theorem statusStep_resume (s : State) (n i j : Nat) (a : BStatus) (h : Inv s)
    (ha : statusAt s.ingestionStore i j = some a) :
    ∃ a2, statusAt (resume s n).ingestionStore i j = some a2 ∧ statusStep a a2 := by
  obtain ⟨hb, hw⟩ := h
  unfold resume
  cases hfl : s.inFlight with
  | nil => exact ⟨a, ha, Or.inl rfl⟩
  | cons w rest =>
    cases rest with
    | cons w2 rest2 => simp only [WorkerInv, hfl] at hw
    | nil =>
      cases n with
      | succ m => exact ⟨a, ha, Or.inl rfl⟩
      | zero =>
        cases w with
        | rateWait id k wake =>
          simp only [WorkerInv, hfl] at hw
          simp only [List.getElem?_cons_zero, List.eraseIdx_cons_zero]
          split_ifs
          · obtain ⟨a2, h2, h3⟩ := statusStep_setTriggered _ id k i j a hw.2.2.1 ha
            refine ⟨a2, h2, ?_⟩
            rcases h3 with h3 | h3
            · exact Or.inl h3.symm
            · exact Or.inr (Or.inl h3)
          · exact ⟨a, ha, Or.inl rfl⟩
        | execWait id k wake =>
          simp only [WorkerInv, hfl] at hw
          obtain ⟨_, _, b, hbk, hbs⟩ := hw
          simp only [List.getElem?_cons_zero, List.eraseIdx_cons_zero]
          split_ifs
          · exact statusStep_complete _ id k i j a (by simp [statusAt, hbk, hbs]) ha
          · exact ⟨a, ha, Or.inl rfl⟩

theorem statusStep_ingest (s : State) (ids : Option (List JVal)) (priority : String)
    (i j : Nat) (a : BStatus) (h : Inv s) (ha : statusAt s.ingestionStore i j = some a) :
    ∃ a2, statusAt (ingest s ids priority).1.ingestionStore i j = some a2 ∧ a2 = a := by
  have hi := lt_nextUuid_of_stored s h i (stored_of_statusAt _ _ _ _ ha)
  refine ⟨a, ?_, rfl⟩
  unfold statusAt
  rw [batchesOf_ingest s ids priority i (by omega)]
  exact ha

theorem statusStep_step (s : State) (e : Event) (i j : Nat) (a : BStatus) (h : Inv s)
    (ha : statusAt s.ingestionStore i j = some a) :
    ∃ a2, statusAt (step s e).ingestionStore i j = some a2 ∧ statusStep a a2 := by
  cases e with
  | ingest ids priority =>
    obtain ⟨a2, h2, h3⟩ := statusStep_ingest s ids priority i j a h ha
    exact ⟨a2, h2, Or.inl h3.symm⟩
  | timeout n => exact statusStep_resume s n i j a h ha
  | tick dt => exact ⟨a, ha, Or.inl rfl⟩

/-! ## No preemption mid-batch (C11) -/

/-- C11. In every reachable state, a run of the `/ingest` handler (with the
`processNextBatch` call it may make) leaves the batches of every ingestion already
in the store exactly as they are, so a batch that is `'triggered'` before the
admission is `'triggered'` after it; and whatever step comes next, a `'triggered'`
batch is then `'triggered'` or `'completed'`. -/
theorem no_preemption (t0 : Nat) (es : List Event) (ids : Option (List JVal))
    (priority : String) (id : Nat)
    (h : (storeGet (exec t0 es).ingestionStore id).isSome = true) :
    batchesOf (step (exec t0 es) (.ingest ids priority)).ingestionStore id =
      batchesOf (exec t0 es).ingestionStore id ∧
    ∀ (k : Nat) (e : Event), statusAt (exec t0 es).ingestionStore id k = some .triggered →
      statusAt (step (exec t0 es) e).ingestionStore id k = some .triggered ∨
      statusAt (step (exec t0 es) e).ingestionStore id k = some .completed := by
  have hinv := inv_exec t0 es
  constructor
  · have hi := lt_nextUuid_of_stored _ hinv id h
    exact batchesOf_ingest _ ids priority id (by omega)
  · intro k e hk
    obtain ⟨a2, h2, h3⟩ := statusStep_step _ e id k _ hinv hk
    rcases h3 with h3 | ⟨h3, _⟩ | ⟨_, h3⟩
    · exact Or.inl (by rw [h2, ← h3])
    · cases h3
    · exact Or.inr (by rw [h2, h3])

/-- Witness for C11: LOW `[1,2,3]` (key 0) is running when HIGH `[4]` is admitted; its
batch is still `'triggered'` afterwards, and `'completed'` once its timer has fired. -/
theorem no_preemption_witness :
    (storeGet (exec 10000 [request [1, 2, 3] "LOW", .tick 3000]).ingestionStore 0).isSome =
      true ∧
    statusAt (exec 10000 [request [1, 2, 3] "LOW", .tick 3000]).ingestionStore 0 0 =
      some .triggered ∧
    statusesOf (step (exec 10000 [request [1, 2, 3] "LOW", .tick 3000])
      (.ingest (some [.num 4]) "HIGH")).ingestionStore 0 = [.triggered] ∧
    batchesOf (step (exec 10000 [request [1, 2, 3] "LOW", .tick 3000])
      (.ingest (some [.num 4]) "HIGH")).ingestionStore 0 =
      batchesOf (exec 10000 [request [1, 2, 3] "LOW", .tick 3000]).ingestionStore 0 ∧
    (statusAt (step (exec 10000 [request [1, 2, 3] "LOW", .tick 3000])
        (.timeout 0)).ingestionStore 0 0 = some .triggered ∨
      statusAt (step (exec 10000 [request [1, 2, 3] "LOW", .tick 3000])
        (.timeout 0)).ingestionStore 0 0 = some .completed) :=
  ⟨by decide, by decide, by decide,
    (no_preemption 10000 [request [1, 2, 3] "LOW", .tick 3000] (some [.num 4]) "HIGH" 0
      (by decide)).1,
    (no_preemption 10000 [request [1, 2, 3] "LOW", .tick 3000] (some [.num 4]) "HIGH" 0
      (by decide)).2 0 (.timeout 0) (by decide)⟩

/-! ## Batch status monotonicity (C12) -/

/-- C12. In every reachable state, one step takes the status of a batch only along
`statusStep`: it stays, or goes from `'yet_to_start'` to `'triggered'`, or from
`'triggered'` to `'completed'`.  So a `'completed'` batch stays `'completed'`, a
`'triggered'` batch is not `'yet_to_start'` afterwards, and a `'yet_to_start'`
batch is not `'completed'` afterwards. -/
theorem batch_status_monotone (t0 : Nat) (es : List Event) (e : Event) (id k : Nat)
    (a : BStatus) (h : statusAt (exec t0 es).ingestionStore id k = some a) :
    ∃ a2, statusAt (step (exec t0 es) e).ingestionStore id k = some a2 ∧ statusStep a a2 ∧
      (a = .completed → a2 = .completed) ∧ (a = .triggered → a2 ≠ .yet_to_start) ∧
      (a = .yet_to_start → a2 ≠ .completed) := by
  obtain ⟨a2, h2, h3⟩ := statusStep_step _ e id k a (inv_exec t0 es) h
  refine ⟨a2, h2, h3, ?_, ?_, ?_⟩
  · rintro rfl
    rcases h3 with h3 | ⟨h3, _⟩ | ⟨h3, _⟩
    · exact h3.symm
    · cases h3
    · cases h3
  · rintro rfl
    rcases h3 with h3 | ⟨h3, _⟩ | ⟨_, h3⟩
    · rw [← h3]; decide
    · cases h3
    · rw [h3]; decide
  · rintro rfl
    rcases h3 with h3 | ⟨_, h3⟩ | ⟨h3, _⟩
    · rw [← h3]; decide
    · rw [h3]; decide
    · cases h3

/-- Witness for C12: the batch of `[1,2,3]` is `'triggered'` and its timer fires. -/
theorem batch_status_monotone_witness :
    statusAt (exec 10000 [request [1, 2, 3] "LOW", .tick 3000]).ingestionStore 0 0 =
      some .triggered ∧
    statusAt (step (exec 10000 [request [1, 2, 3] "LOW", .tick 3000])
      (.timeout 0)).ingestionStore 0 0 = some .completed ∧
    ∃ a2, statusAt (step (exec 10000 [request [1, 2, 3] "LOW", .tick 3000])
        (.timeout 0)).ingestionStore 0 0 = some a2 ∧ statusStep .triggered a2 ∧
      (BStatus.triggered = .completed → a2 = .completed) ∧
      (BStatus.triggered = .triggered → a2 ≠ .yet_to_start) ∧
      (BStatus.triggered = .yet_to_start → a2 ≠ .completed) :=
  ⟨by decide, by decide,
    batch_status_monotone 10000 [request [1, 2, 3] "LOW", .tick 3000] (.timeout 0) 0 0
      .triggered (by decide)⟩

/-! ## Status lookup (C13) -/

theorem stored_processNextBatch (s : State) (q : List QueueEntry) (n : Nat) :
    (storeGet (processNextBatch s q).ingestionStore n).isSome =
      (storeGet s.ingestionStore n).isSome := by
  rcases processNextBatch_store s q with h | ⟨id, k, _, h⟩
  · rw [h]
  · rw [h]
    exact isSome_storeGet_storeModify _ _ _ _

theorem stored_complete (s : State) (id k n : Nat) :
    (storeGet (complete s id k).ingestionStore n).isSome =
      (storeGet s.ingestionStore n).isSome := by
  unfold complete
  simp only
  split_ifs <;> rw [stored_processNextBatch] <;>
    simp only [setIngestionStatus, setBatchStatus, isSome_storeGet_storeModify]

theorem stored_resume (s : State) (i n : Nat) :
    (storeGet (resume s i).ingestionStore n).isSome =
      (storeGet s.ingestionStore n).isSome := by
  unfold resume
  split
  · rfl
  · split_ifs
    · simp only [dispatch, setBatchStatus, isSome_storeGet_storeModify]
    · rfl
  · split_ifs
    · exact stored_complete _ _ _ n
    · rfl

theorem stored_acceptRequest (s : State) (l : List JVal) (p : Priority) (n : Nat) :
    (storeGet (acceptRequest s l p).ingestionStore n).isSome =
      (decide (s.nextUuid = n) || (storeGet s.ingestionStore n).isSome) := by
  unfold acceptRequest
  simp only
  split_ifs
  · rw [stored_processNextBatch]
    simp only [storeGet_storeSet]
    split_ifs with h <;> simp [h]
  · simp only [storeGet_storeSet]
    split_ifs with h <;> simp [h]

theorem ingest_response (s : State) (ids : Option (List JVal)) (priority : String) :
    (ingest s ids priority = (s, .badRequest)) ∨
    ∃ l p, ingest s ids priority = (acceptRequest s l p, .ok s.nextUuid) := by
  unfold ingest
  split
  · split_ifs
    · exact Or.inl rfl
    · exact Or.inl rfl
    · exact Or.inr ⟨_, _, rfl⟩
  · exact Or.inl rfl

theorem stored_iff_returned (es : List Event) (s : State) (h : Inv s) (n : Nat) :
    (storeGet (es.foldl step s).ingestionStore n).isSome = true ↔
      (storeGet s.ingestionStore n).isSome = true ∨ n ∈ returnedIds s es := by
  induction es generalizing s with
  | nil => simp [returnedIds]
  | cons e rest ih =>
    rw [List.foldl_cons, ih _ (inv_step s e h)]
    cases e with
    | ingest ids priority =>
      simp only [step, returnedIds]
      rcases ingest_response s ids priority with hr | ⟨l, p, hr⟩
      · rw [hr]
      · rw [hr]
        simp only [stored_acceptRequest, Bool.or_eq_true, decide_eq_true_eq, List.mem_cons]
        constructor
        · rintro ((h1 | h1) | h1)
          · exact Or.inr (Or.inl h1.symm)
          · exact Or.inl h1
          · exact Or.inr (Or.inr h1)
        · rintro (h1 | h1 | h1)
          · exact Or.inl (Or.inr h1)
          · exact Or.inl (Or.inl h1.symm)
          · exact Or.inr h1
    | timeout i =>
      simp only [step, returnedIds, stored_resume]
    | tick dt =>
      simp only [step, returnedIds]

/-- Supporting fact for C13 (the part that holds): for the text of a uuid, the status
handler answers 404 exactly when no successful admission of the execution returned
it, and otherwise answers with the snapshot of the stored ingestion. -/
theorem status_lookup_uuid (t0 : Nat) (es : List Event) (n : Nat) :
    ((statusHandler (exec t0 es) (.uuid n)).2 = .reply .notFound ↔
      n ∉ returnedIds (init t0) es) ∧
    (n ∈ returnedIds (init t0) es →
      ∃ ing, storeGet (exec t0 es).ingestionStore n = some ing ∧
        (statusHandler (exec t0 es) (.uuid n)).2 =
          .reply (.ok n (overallStatus ing) ing.batches)) := by
  have hiff := stored_iff_returned es (init t0) (inv_init t0) n
  have h0 : (storeGet (init t0).ingestionStore n).isSome = false := rfl
  simp only [h0, Bool.false_eq_true, false_or] at hiff
  change (storeGet (exec t0 es).ingestionStore n).isSome = true ↔ _ at hiff
  simp only [statusHandler, getStatus]
  cases hg : storeGet (exec t0 es).ingestionStore n with
  | none =>
    rw [hg] at hiff
    simp only [Option.isSome_none, Bool.false_eq_true, false_iff] at hiff
    exact ⟨⟨fun _ => hiff, fun _ => rfl⟩, fun h => absurd h hiff⟩
  | some ing =>
    rw [hg] at hiff
    simp only [Option.isSome_some, true_iff] at hiff
    refine ⟨⟨fun h => ?_, fun h => absurd hiff h⟩, fun _ => ⟨ing, rfl, rfl⟩⟩
    simp at h

/-- C13 at a failing input.  `GET /status/constructor` asks for a string that no
admission has returned, in any reachable state; `ingestionStore['constructor']` is
the inherited `Object` function, so the test of line 134 does not answer 404, and
line 142 throws a `TypeError` on `ingestion.batches.some`: the outcome is an error
other than not-found. -/
theorem status_lookup_inherited_key (t0 : Nat) (es : List Event) :
    (statusHandler (exec t0 es) (.text "constructor")).2 = .typeError ∧
    (statusHandler (exec t0 es) (.text "constructor")).2 ≠ .reply .notFound ∧
    (statusHandler (exec t0 es) (.text "no-such-id")).2 = .reply .notFound := by
  refine ⟨?_, ?_, ?_⟩
  · simp only [statusHandler]
    rw [if_pos (by decide)]
  · simp only [statusHandler]
    rw [if_pos (by decide)]
    simp
  · simp only [statusHandler]
    rw [if_neg (by decide)]

/-! ## Admission validation (C14) -/

theorem validId_iff (x : JVal) : validId x = true ↔ idInRange x := by
  cases x with
  | num n =>
    simp only [validId, Bool.and_eq_true, decide_eq_true_eq, idInRange]
    constructor
    · intro h
      exact ⟨n, rfl, h⟩
    · rintro ⟨m, hm, h⟩
      cases hm
      exact h
  | other =>
    simp only [validId, idInRange]
    constructor
    · intro h
      cases h
    · rintro ⟨m, hm, _⟩
      cases hm

theorem parsePriority_none (priority : String) :
    parsePriority priority = none ↔ priority ∉ ["HIGH", "MEDIUM", "LOW"] := by
  unfold parsePriority
  simp only [List.mem_cons, List.mem_singleton, List.not_mem_nil, or_false, not_or]
  split_ifs with h1 h2 h3
  · simp [h1]
  · simp [h2]
  · simp [h3]
  · simp [h1, h2, h3]

theorem accepted_none_iff (ids : Option (List JVal)) (priority : String) :
    accepted ids priority = none ↔ rejectCondition ids priority := by
  unfold rejectCondition
  cases ids with
  | none => simp [accepted]
  | some l =>
    cases hp : parsePriority priority with
    | none =>
      have := (parsePriority_none priority).mp hp
      simp [accepted, hp, this]
    | some p =>
      have hin : ¬ priority ∉ ["HIGH", "MEDIUM", "LOW"] := by
        rw [← parsePriority_none, hp]
        simp
      simp only [accepted, hp, ite_eq_right_iff, imp_false, not_and, reduceCtorEq, false_or,
        Option.some.injEq, hin, exists_eq_left']
      constructor
      · intro h
        by_cases hl : l = []
        · exact Or.inl hl
        · right
          have h2 := h (by simpa using hl)
          rw [List.all_eq_true] at h2
          push_neg at h2
          obtain ⟨x, hx, hv⟩ := h2
          exact ⟨x, hx, fun hr => hv ((validId_iff x).mpr hr)⟩
      · rintro (hl | ⟨x, hx, hv⟩)
        · intro h
          exact absurd (by simp [hl]) h
        · intro _ hall
          rw [List.all_eq_true] at hall
          exact hv ((validId_iff x).mp (hall x hx))

theorem ingest_of_rejected (s : State) (ids : Option (List JVal)) (priority : String)
    (h : accepted ids priority = none) : ingest s ids priority = (s, .badRequest) := by
  cases ids with
  | none => simp [ingest]
  | some l =>
    cases hp : parsePriority priority with
    | none => simp [ingest, hp]
    | some p =>
      simp only [accepted, hp] at h
      by_cases hv : l.length ≠ 0 ∧ l.all validId = true
      · rw [if_pos hv] at h
        cases h
      · simp only [ingest, hp]
        by_cases h0 : l.length = 0
        · rw [if_pos h0]
        · rw [if_neg h0, if_pos]
          have : ¬ l.all validId = true := fun h2 => hv ⟨h0, h2⟩
          simpa using this

/-- C14. The `/ingest` handler answers 400 and leaves the whole state as it is (store,
queue, suspended invocations) when `ids` is not a non-empty array, or `priority` is
not `'HIGH'`, `'MEDIUM'` or `'LOW'`, or some element of `ids` is not an integer in
[1, 1000000007]; in every other case it runs the admission, answers with the new
id, and the ingestion is stored under that id. -/
theorem validation_exact (s : State) (ids : Option (List JVal)) (priority : String) :
    (rejectCondition ids priority → ingest s ids priority = (s, .badRequest)) ∧
    (¬ rejectCondition ids priority →
      ∃ l p, ids = some l ∧ parsePriority priority = some p ∧
        ingest s ids priority = (acceptRequest s l p, .ok s.nextUuid) ∧
        (storeGet (ingest s ids priority).1.ingestionStore s.nextUuid).isSome = true) := by
  constructor
  · intro h
    exact ingest_of_rejected s ids priority ((accepted_none_iff ids priority).mpr h)
  · intro h
    rw [← accepted_none_iff] at h
    cases ha : accepted ids priority with
    | none => exact absurd ha h
    | some lp =>
      obtain ⟨l, p⟩ := lp
      have hi := ingest_of_accepted s ids priority l p ha
      refine ⟨l, p, ?_, ?_, hi, ?_⟩
      · cases ids with
        | none => simp [accepted] at ha
        | some l2 =>
          cases hp : parsePriority priority with
          | none => simp [accepted, hp] at ha
          | some p2 =>
            simp only [accepted, hp] at ha
            split_ifs at ha
            simp only [Option.some.injEq, Prod.mk.injEq] at ha
            rw [ha.1]
      · cases ids with
        | none => simp [accepted] at ha
        | some l2 =>
          cases hp : parsePriority priority with
          | none => simp [accepted, hp] at ha
          | some p2 =>
            simp only [accepted, hp] at ha
            split_ifs at ha
            simp only [Option.some.injEq, Prod.mk.injEq] at ha
            rw [ha.2]
      · rw [hi]
        simp [stored_acceptRequest]

/-- Witness for C14 (Tests 2 and 3): priority `'INVALID'` with ids `[1,2,3]` is rejected,
ids `[0,1,2]` with priority `'HIGH'` is rejected, and ids `[1,2,3]` with priority
`'HIGH'` is admitted. -/
theorem validation_exact_witness :
    ingest (init 0) (some [.num 1, .num 2, .num 3]) "INVALID" = (init 0, .badRequest) ∧
    ingest (init 0) (some [.num 0, .num 1, .num 2]) "HIGH" = (init 0, .badRequest) ∧
    ∃ l p, some [JVal.num 1, .num 2, .num 3] = some l ∧ parsePriority "HIGH" = some p ∧
      ingest (init 0) (some [.num 1, .num 2, .num 3]) "HIGH" =
        (acceptRequest (init 0) l p, .ok (init 0).nextUuid) ∧
      (storeGet (ingest (init 0) (some [.num 1, .num 2, .num 3]) "HIGH").1.ingestionStore
        (init 0).nextUuid).isSome = true :=
  ⟨(validation_exact (init 0) (some [.num 1, .num 2, .num 3]) "INVALID").1
      (Or.inr (Or.inl (by decide))),
    (validation_exact (init 0) (some [.num 0, .num 1, .num 2]) "HIGH").1
      (Or.inr (Or.inr ⟨_, rfl, .num 0, by simp, fun ⟨n, hn, h1, _⟩ => by
        cases hn
        omega⟩)),
    (validation_exact (init 0) (some [.num 1, .num 2, .num 3]) "HIGH").2
      ((accepted_none_iff _ _).not.mp (by decide))⟩

/-! ## Statuses of a new ingestion (C15) -/

theorem processNextBatch_single (s : State) (e : QueueEntry) (ing : Ingestion) (k : Nat)
    (hg : storeGet s.ingestionStore e.ingestionId = some ing)
    (hfp : firstPending ing.batches = some k) :
    (processNextBatch s [e]).ingestionStore =
      if s.now - s.lastProcessedTime < RATE_LIMIT_MS then s.ingestionStore
      else setBatchStatus s.ingestionStore e.ingestionId k .triggered := by
  unfold processNextBatch
  simp only [hg, hfp]
  split_ifs
  · rfl
  · rfl

theorem statuses_replicate (bs : List Batch) (h : ∀ b ∈ bs, b.status = .yet_to_start) :
    bs.map (fun b => b.status) = List.replicate bs.length .yet_to_start := by
  induction bs with
  | nil => rfl
  | cons b rest ih =>
    simp only [List.map_cons, List.length_cons, List.replicate_succ]
    rw [h b (List.mem_cons_self _ _), ih (fun c hc => h c (List.mem_cons_of_mem _ hc))]

theorem accepted_length (ids : Option (List JVal)) (priority : String) (l : List JVal)
    (p : Priority) (h : accepted ids priority = some (l, p)) : l.length ≠ 0 := by
  cases ids with
  | none => simp [accepted] at h
  | some l2 =>
    cases hp : parsePriority priority with
    | none => simp [accepted, hp] at h
    | some p2 =>
      simp only [accepted, hp] at h
      split_ifs at h with hv
      simp only [Option.some.injEq, Prod.mk.injEq] at h
      rw [← h.1]
      exact hv.1

/-- C15, as the code does not satisfy it: ids `[1,2,3,4,5]` with priority `MEDIUM` on
an idle system give the batches `[1,2,3]` and `[4,5]`, and in the state in which the
handler returns the first is `'triggered'` (the handler has called
`processNextBatch`, which dispatched it) and the second `'yet_to_start'`. -/
theorem first_batch_triggered_on_return :
    (ingest (init 10000) (some [.num 1, .num 2, .num 3, .num 4, .num 5]) "MEDIUM").2 = .ok 0 ∧
    idsOf (ingest (init 10000) (some [.num 1, .num 2, .num 3, .num 4, .num 5])
      "MEDIUM").1.ingestionStore 0 = [[.num 1, .num 2, .num 3], [.num 4, .num 5]] ∧
    statusesOf (ingest (init 10000) (some [.num 1, .num 2, .num 3, .num 4, .num 5])
      "MEDIUM").1.ingestionStore 0 = [.triggered, .yet_to_start] := by
  decide

/-- C15 as amended. For every accepted submission, in the state in which the handler
returns, the batches of the new ingestion are all `'yet_to_start'`, except that the
first one is `'triggered'` when the queue was empty before the submission and at
least `RATE_LIMIT_MS` has passed since the last dispatch. -/
theorem initial_batch_statuses (s : State) (ids : Option (List JVal)) (priority : String)
    (l : List JVal) (p : Priority) (h : accepted ids priority = some (l, p)) :
    statusesOf (ingest s ids priority).1.ingestionStore s.nextUuid =
      if s.priorityQueue = [] ∧ RATE_LIMIT_MS ≤ s.now - s.lastProcessedTime then
        .triggered :: List.replicate ((l.length + 2) / 3 - 1) .yet_to_start
      else List.replicate ((l.length + 2) / 3) .yet_to_start := by
  rw [ingest_of_accepted s ids priority l p h]
  have hl := accepted_length ids priority l p h
  have hlen := length_batchLoop l l.length 0 (s.nextUuid + 1) (by omega)
  have hst := statuses_replicate _ (status_batchLoop l l.length 0 (s.nextUuid + 1))
  simp only [Nat.sub_zero] at hlen
  rw [hlen] at hst
  have hpos : 1 ≤ (l.length + 2) / 3 := by omega
  unfold statusesOf acceptRequest
  simp only
  by_cases hq : s.priorityQueue = []
  · have hsort : sortQueue (s.priorityQueue ++
        [{ ingestionId := s.nextUuid, priority := p, timestamp := s.now }]) =
        [{ ingestionId := s.nextUuid, priority := p, timestamp := s.now }] := by
      rw [hq]
      rfl
    rw [hsort]
    simp only [List.length_singleton, if_true]
    cases hB : batchLoop l l.length 0 (s.nextUuid + 1) with
    | nil =>
      rw [hB] at hlen
      simp at hlen
      omega
    | cons b0 rest =>
      have hb0 : b0.status = .yet_to_start := by
        have := status_batchLoop l l.length 0 (s.nextUuid + 1) b0 (by rw [hB]; simp)
        exact this
      rw [hB] at hst
      simp only [List.map_cons] at hst
      have hrest : rest.map (fun b => b.status) =
          List.replicate ((l.length + 2) / 3 - 1) .yet_to_start := by
        obtain ⟨n, hn⟩ : ∃ n, (l.length + 2) / 3 = n + 1 := ⟨(l.length + 2) / 3 - 1, by omega⟩
        rw [hn, List.replicate_succ] at hst
        rw [hn]
        simpa using (List.cons.inj hst).2
      rw [processNextBatch_single _ _
        { status := .yet_to_start, batches := b0 :: rest, priority := p, timestamp := s.now } 0
        (by simp [storeGet_storeSet]) (by simp [firstPending, hb0])]
      simp only [hq, true_and]
      by_cases hr : s.now - s.lastProcessedTime < RATE_LIMIT_MS
      · rw [if_pos hr, if_neg (by omega)]
        simp only [batchesOf, storeGet_storeSet, if_true, List.map_cons]
        rw [hb0, hrest]
        obtain ⟨n, hn⟩ : ∃ n, (l.length + 2) / 3 = n + 1 := ⟨(l.length + 2) / 3 - 1, by omega⟩
        rw [hn, List.replicate_succ]
        simp
      · rw [if_neg hr, if_pos (by omega)]
        rw [batchesOf_setBatchStatus, if_pos rfl, batchesOf_storeSet, if_pos rfl]
        simp only [setStatusAt, List.map_cons]
        rw [hrest]
  · have hne : ¬ (sortQueue (s.priorityQueue ++
        [{ ingestionId := s.nextUuid, priority := p, timestamp := s.now }])).length = 1 := by
      rw [length_sortQueue, List.length_append, List.length_singleton]
      have : s.priorityQueue.length ≠ 0 := fun h0 => hq (List.length_eq_zero.mp h0)
      omega
    rw [if_neg hne, if_neg (fun hc => hq hc.1)]
    simp only [batchesOf, storeGet_storeSet, if_true]
    exact hst

/-- Witness for the amended C15: `MEDIUM [1,2,3,4,5]` submitted while `LOW [9]` is
running has both batches `'yet_to_start'` when the handler returns. -/
theorem initial_batch_statuses_witness :
    accepted (some [.num 1, .num 2, .num 3, .num 4, .num 5]) "MEDIUM" =
      some ([.num 1, .num 2, .num 3, .num 4, .num 5], .MEDIUM) ∧
    statusesOf (ingest (exec 10000 [request [9] "LOW"])
      (some [.num 1, .num 2, .num 3, .num 4, .num 5]) "MEDIUM").1.ingestionStore 2 =
      [.yet_to_start, .yet_to_start] ∧
    statusesOf (ingest (exec 10000 [request [9] "LOW"])
      (some [.num 1, .num 2, .num 3, .num 4, .num 5]) "MEDIUM").1.ingestionStore
      (exec 10000 [request [9] "LOW"]).nextUuid =
      if (exec 10000 [request [9] "LOW"]).priorityQueue = [] ∧
          RATE_LIMIT_MS ≤ (exec 10000 [request [9] "LOW"]).now -
            (exec 10000 [request [9] "LOW"]).lastProcessedTime then
        .triggered :: List.replicate (([JVal.num 1, .num 2, .num 3, .num 4, .num 5].length + 2) / 3
          - 1) .yet_to_start
      else List.replicate (([JVal.num 1, .num 2, .num 3, .num 4, .num 5].length + 2) / 3)
        .yet_to_start :=
  ⟨by decide, by decide,
    initial_batch_statuses (exec 10000 [request [9] "LOW"])
      (some [.num 1, .num 2, .num 3, .num 4, .num 5]) "MEDIUM"
      [.num 1, .num 2, .num 3, .num 4, .num 5] .MEDIUM (by decide)⟩

/-! ## Read purity (C16) -/

theorem statusHandler_state (s : State) (key : RouteKey) : (statusHandler s key).1 = s := by
  cases key with
  | uuid n => rfl
  | text t =>
    simp only [statusHandler]
    split_ifs <;> rfl

/-- C16. The status handler leaves the state as it is; its response is the same in
any two states with the same `ingestionStore`; so a second query for the same
key, after any passage of time but no admission and no `processNextBatch` step,
gets the response of the first. -/
theorem read_purity (s : State) (key : RouteKey) :
    (statusHandler s key).1 = s ∧
    (∀ s2 : State, s2.ingestionStore = s.ingestionStore →
      (statusHandler s2 key).2 = (statusHandler s key).2) ∧
    ∀ dts : List Nat,
      (statusHandler ((dts.map Event.tick).foldl step (statusHandler s key).1) key).2 =
        (statusHandler s key).2 := by
  have h1 := statusHandler_state
  have h2 : ∀ s2 : State, s2.ingestionStore = s.ingestionStore →
      (statusHandler s2 key).2 = (statusHandler s key).2 := by
    intro s2 h
    cases key with
    | uuid n => simp only [statusHandler, getStatus, h]
    | text t =>
      simp only [statusHandler]
      split_ifs <;> rfl
  refine ⟨h1 s key, h2, ?_⟩
  intro dts
  apply h2
  rw [h1]
  induction dts generalizing s with
  | nil => rfl
  | cons d rest ih =>
    simp only [List.map_cons, List.foldl_cons]
    have := ih { s with now := s.now + (d : Int) } (fun s2 h => by
      cases key with
      | uuid n => simp only [statusHandler, getStatus, h]
      | text t =>
        simp only [statusHandler]
        split_ifs <;> rfl)
    exact this

/-- Witness for C16: two queries for key 0, 2 s apart, while `[1,2,3,4]` is in
progress. -/
theorem read_purity_witness :
    (statusHandler (exec 10000 [request [1, 2, 3, 4] "LOW"]) (.uuid 0)).2 =
      .reply (.ok 0 .triggered
        [{ batch_id := 1, ids := [.num 1, .num 2, .num 3], status := .triggered },
         { batch_id := 2, ids := [.num 4], status := .yet_to_start }]) ∧
    (exec 10000 [request [1, 2, 3, 4] "LOW", .tick 2000]).ingestionStore =
      (exec 10000 [request [1, 2, 3, 4] "LOW"]).ingestionStore ∧
    (statusHandler (exec 10000 [request [1, 2, 3, 4] "LOW", .tick 2000]) (.uuid 0)).2 =
      (statusHandler (exec 10000 [request [1, 2, 3, 4] "LOW"]) (.uuid 0)).2 ∧
    (statusHandler ((([2000] : List Nat).map Event.tick).foldl step
        (statusHandler (exec 10000 [request [1, 2, 3, 4] "LOW"]) (.uuid 0)).1) (.uuid 0)).2 =
      (statusHandler (exec 10000 [request [1, 2, 3, 4] "LOW"]) (.uuid 0)).2 :=
  ⟨by decide, by decide,
    (read_purity (exec 10000 [request [1, 2, 3, 4] "LOW"]) (.uuid 0)).2.1
      (exec 10000 [request [1, 2, 3, 4] "LOW", .tick 2000]) (by decide),
    (read_purity (exec 10000 [request [1, 2, 3, 4] "LOW"]) (.uuid 0)).2.2 [2000]⟩

/-! ## Batch shape (C17) -/

theorem getElem?_batchLoop (ids : List JVal) (fuel i uuid j : Nat) (b : Batch)
    (h : (batchLoop ids fuel i uuid)[j]? = some b) :
    b.ids = (ids.drop (i + 3 * j)).take 3 ∧ i + 3 * j < ids.length := by
  induction fuel generalizing i uuid j with
  | zero => simp [batchLoop] at h
  | succ fuel ih =>
    unfold batchLoop at h
    by_cases hi : i < ids.length
    · rw [if_pos hi] at h
      cases j with
      | zero =>
        simp only [List.getElem?_cons_zero, Option.some.injEq] at h
        subst h
        exact ⟨rfl, hi⟩
      | succ j =>
        simp only [List.getElem?_cons_succ] at h
        obtain ⟨h1, h2⟩ := ih (i + 3) (uuid + 1) j h
        have he : i + 3 * (j + 1) = i + 3 + 3 * j := by omega
        rw [he]
        exact ⟨h1, h2⟩
    · rw [if_neg hi] at h
      simp at h

/-- C17. For every accepted request with id list `l`, the id lists of the batches the
handler stored each hold between 1 and 3 ids, each one but the last holds exactly
3, and the last holds `l.length % 3` ids if that is not 0 and 3 otherwise. -/
theorem batch_shape (s : State) (ids : Option (List JVal)) (priority : String)
    (l : List JVal) (p : Priority) (h : accepted ids priority = some (l, p)) :
    (∀ c ∈ idsOf (ingest s ids priority).1.ingestionStore s.nextUuid,
      1 ≤ c.length ∧ c.length ≤ 3) ∧
    (∀ j c, (idsOf (ingest s ids priority).1.ingestionStore s.nextUuid)[j]? = some c →
      j + 1 < (idsOf (ingest s ids priority).1.ingestionStore s.nextUuid).length →
      c.length = 3) ∧
    ∀ c, (idsOf (ingest s ids priority).1.ingestionStore s.nextUuid).getLast? = some c →
      c.length = if l.length % 3 = 0 then 3 else l.length % 3 := by
  rw [ingest_of_accepted s ids priority l p h]
  simp only [idsOf_acceptRequest]
  have hlen := length_batchLoop l l.length 0 (s.nextUuid + 1) (by omega)
  simp only [Nat.sub_zero] at hlen
  have hl := accepted_length ids priority l p h
  refine ⟨?_, ?_, ?_⟩
  · intro c hc
    obtain ⟨b, hb, rfl⟩ := List.mem_map.mp hc
    exact size_batchLoop l l.length 0 (s.nextUuid + 1) b hb
  · intro j c hj hlt
    rw [List.getElem?_map] at hj
    rw [List.length_map, hlen] at hlt
    cases hb : (batchLoop l l.length 0 (s.nextUuid + 1))[j]? with
    | none => simp [hb] at hj
    | some b =>
      rw [hb] at hj
      simp only [Option.map_some', Option.some.injEq] at hj
      obtain ⟨h1, h2⟩ := getElem?_batchLoop l l.length 0 (s.nextUuid + 1) j b hb
      rw [← hj, h1, List.length_take, List.length_drop]
      omega
  · intro c hc
    rw [List.getLast?_eq_getElem?, List.length_map, hlen, List.getElem?_map] at hc
    cases hb : (batchLoop l l.length 0 (s.nextUuid + 1))[(l.length + 2) / 3 - 1]? with
    | none => simp [hb] at hc
    | some b =>
      rw [hb] at hc
      simp only [Option.map_some', Option.some.injEq] at hc
      obtain ⟨h1, h2⟩ := getElem?_batchLoop l l.length 0 (s.nextUuid + 1) _ b hb
      rw [← hc, h1, List.length_take, List.length_drop]
      split_ifs <;> omega

/-- Witness for C17: `[1,2,3,4,5]` gives a batch of 3 ids and a last batch of 2. -/
theorem batch_shape_witness :
    accepted (some [.num 1, .num 2, .num 3, .num 4, .num 5]) "MEDIUM" =
      some ([.num 1, .num 2, .num 3, .num 4, .num 5], .MEDIUM) ∧
    (idsOf (ingest (init 0) (some [.num 1, .num 2, .num 3, .num 4, .num 5])
      "MEDIUM").1.ingestionStore (init 0).nextUuid).getLast? = some [.num 4, .num 5] ∧
    ([JVal.num 4, .num 5].length =
      if [JVal.num 1, .num 2, .num 3, .num 4, .num 5].length % 3 = 0 then 3
      else [JVal.num 1, .num 2, .num 3, .num 4, .num 5].length % 3) :=
  ⟨by decide, by decide,
    (batch_shape (init 0) (some [.num 1, .num 2, .num 3, .num 4, .num 5]) "MEDIUM"
      [.num 1, .num 2, .num 3, .num 4, .num 5] .MEDIUM (by decide)).2.2
      [.num 4, .num 5] (by decide)⟩

/-! ## Store retention and immutability (C18) -/

theorem retains_refl (store : List (Nat × Ingestion)) : Retains store store :=
  fun _ ing h => ⟨ing, h, rfl⟩

theorem retains_trans (a b c : List (Nat × Ingestion)) (h1 : Retains a b) (h2 : Retains b c) :
    Retains a c := by
  intro id ing h
  obtain ⟨ing2, hg2, hs2⟩ := h1 id ing h
  obtain ⟨ing3, hg3, hs3⟩ := h2 id ing2 hg2
  exact ⟨ing3, hg3, hs3.trans hs2⟩

theorem map_key_setStatusAt (bs : List Batch) (k : Nat) (st : BStatus) :
    (setStatusAt bs k st).map (fun b => (b.batch_id, b.ids)) =
      bs.map (fun b => (b.batch_id, b.ids)) := by
  induction bs generalizing k with
  | nil => simp [setStatusAt]
  | cons b rest ih =>
    cases k with
    | zero => simp [setStatusAt]
    | succ k => simp [setStatusAt, ih]

theorem retains_storeModify (store : List (Nat × Ingestion)) (id : Nat)
    (f : Ingestion → Ingestion) (hf : ∀ ing, skeleton (f ing) = skeleton ing) :
    Retains store (storeModify store id f) := by
  intro i ing h
  rw [storeGet_storeModify, h]
  by_cases hi : id = i
  · exact ⟨f ing, by simp [hi], hf ing⟩
  · exact ⟨ing, by simp [hi], rfl⟩

theorem retains_setBatchStatus (store : List (Nat × Ingestion)) (id k : Nat) (st : BStatus) :
    Retains store (setBatchStatus store id k st) :=
  retains_storeModify store id _ (fun ing => by simp [skeleton, map_key_setStatusAt])

theorem retains_setIngestionStatus (store : List (Nat × Ingestion)) (id : Nat) (st : BStatus) :
    Retains store (setIngestionStatus store id st) :=
  retains_storeModify store id _ (fun ing => by simp [skeleton])

theorem retains_processNextBatch (s : State) (q : List QueueEntry)
    (store : List (Nat × Ingestion)) (h0 : Retains store s.ingestionStore) :
    Retains store (processNextBatch s q).ingestionStore := by
  rcases processNextBatch_store s q with h | ⟨id, k, _, h⟩
  · rw [h]
    exact h0
  · rw [h]
    exact retains_trans _ _ _ h0 (retains_setBatchStatus _ _ _ _)

theorem retains_complete (s : State) (id k : Nat) (store : List (Nat × Ingestion))
    (h0 : Retains store s.ingestionStore) :
    Retains store (complete s id k).ingestionStore := by
  have h1 := retains_trans _ _ _ h0 (retains_setBatchStatus s.ingestionStore id k .completed)
  unfold complete
  simp only
  split_ifs
  · exact retains_processNextBatch _ _ _
      (retains_trans _ _ _ h1 (retains_setIngestionStatus _ id _))
  · exact retains_processNextBatch _ _ _
      (retains_trans _ _ _ h1 (retains_setIngestionStatus _ id _))
  · exact retains_processNextBatch _ _ _ h1

theorem retains_resume (s : State) (i : Nat) :
    Retains s.ingestionStore (resume s i).ingestionStore := by
  unfold resume
  split
  · exact retains_refl _
  · split_ifs
    · exact retains_setBatchStatus _ _ _ _
    · exact retains_refl _
  · split_ifs
    · exact retains_complete _ _ _ _ (retains_refl _)
    · exact retains_refl _

theorem retains_acceptRequest (s : State) (l : List JVal) (p : Priority) (h : Inv s) :
    Retains s.ingestionStore (acceptRequest s l p).ingestionStore := by
  have h1 : Retains s.ingestionStore (storeSet s.ingestionStore s.nextUuid
      { status := .yet_to_start, batches := batchLoop l l.length 0 (s.nextUuid + 1),
        priority := p, timestamp := s.now }) := by
    intro i ing hg
    have hne : ¬ s.nextUuid = i := by
      intro hi
      rw [← hi, storeGet_fresh _ _ h.base.keys] at hg
      cases hg
    exact ⟨ing, by rw [storeGet_storeSet, if_neg hne]; exact hg, rfl⟩
  unfold acceptRequest
  simp only
  split_ifs
  · exact retains_processNextBatch _ _ _ h1
  · exact h1

theorem retains_step (s : State) (e : Event) (h : Inv s) :
    Retains s.ingestionStore (step s e).ingestionStore := by
  cases e with
  | ingest ids priority =>
    simp only [step]
    rcases ingest_response s ids priority with hr | ⟨l, p, hr⟩
    · rw [hr]
      exact retains_refl _
    · rw [hr]
      exact retains_acceptRequest s l p h
  | timeout i => exact retains_resume s i
  | tick dt => exact retains_refl _

theorem retains_foldl (es : List Event) (s : State) (h : Inv s) :
    Retains s.ingestionStore (es.foldl step s).ingestionStore := by
  induction es generalizing s with
  | nil => exact retains_refl _
  | cons e rest ih =>
    exact retains_trans _ _ _ (retains_step s e h) (ih _ (inv_step s e h))

/-- C18. In every execution, an ingestion that is in the store stays in the store
under its key through any further events, with the same priority, the same
timestamp, and the same batches in the same order as far as `batch_id` and `ids`
go (only status values differ); and a status query leaves the store as it is. -/
theorem store_retention (t0 : Nat) (es more : List Event) (id : Nat) (ing : Ingestion)
    (h : storeGet (exec t0 es).ingestionStore id = some ing) :
    (∃ ing2, storeGet (exec t0 (es ++ more)).ingestionStore id = some ing2 ∧
      ing2.priority = ing.priority ∧ ing2.timestamp = ing.timestamp ∧
      ing2.batches.length = ing.batches.length ∧
      ing2.batches.map (fun b => (b.batch_id, b.ids)) =
        ing.batches.map (fun b => (b.batch_id, b.ids))) ∧
    ∀ key : RouteKey,
      (statusHandler (exec t0 es) key).1.ingestionStore = (exec t0 es).ingestionStore := by
  constructor
  · have hr := retains_foldl more (exec t0 es) (inv_exec t0 es) id ing h
    unfold exec
    rw [List.foldl_append]
    obtain ⟨ing2, hg, hs⟩ := hr
    simp only [skeleton, Prod.mk.injEq] at hs
    refine ⟨ing2, hg, hs.1, hs.2.1, ?_, hs.2.2⟩
    have := congrArg List.length hs.2.2
    simpa using this
  · intro key
    rw [statusHandler_state]

/-- Witness for C18: `[1,2,3,4]` (key 0) is stored; after its first batch has run it
is still stored with the same priority, timestamp, batch ids and id lists. -/
theorem store_retention_witness :
    storeGet (exec 10000 [request [1, 2, 3, 4] "LOW"]).ingestionStore 0 =
      some { status := .yet_to_start,
             batches := [{ batch_id := 1, ids := [.num 1, .num 2, .num 3], status := .triggered },
                         { batch_id := 2, ids := [.num 4], status := .yet_to_start }],
             priority := .LOW, timestamp := 10000 } ∧
    statusesOf (exec 10000 ([request [1, 2, 3, 4] "LOW"] ++
      [.tick 3000, .timeout 0])).ingestionStore 0 = [.completed, .yet_to_start] ∧
    ∃ ing2, storeGet (exec 10000 ([request [1, 2, 3, 4] "LOW"] ++
        [.tick 3000, .timeout 0])).ingestionStore 0 = some ing2 ∧
      ing2.priority = .LOW ∧ ing2.timestamp = 10000 ∧ ing2.batches.length = 2 ∧
      ing2.batches.map (fun b => (b.batch_id, b.ids)) =
        [(1, [.num 1, .num 2, .num 3]), (2, [.num 4])] :=
  ⟨by decide, by decide,
    (store_retention 10000 [request [1, 2, 3, 4] "LOW"] [.tick 3000, .timeout 0] 0
      { status := .yet_to_start,
        batches := [{ batch_id := 1, ids := [.num 1, .num 2, .num 3], status := .triggered },
                    { batch_id := 2, ids := [.num 4], status := .yet_to_start }],
        priority := .LOW, timestamp := 10000 } (by decide)).1⟩

/-! ## Wake condition (C19) -/

theorem queue_processNextBatch_single (s : State) (e : QueueEntry) (ing : Ingestion) (k : Nat)
    (hg : storeGet s.ingestionStore e.ingestionId = some ing)
    (hfp : firstPending ing.batches = some k) :
    (processNextBatch s [e]).priorityQueue = [e] := by
  unfold processNextBatch
  simp only [hg, hfp]
  split_ifs
  · rfl
  · rfl

theorem queue_acceptRequest (s : State) (l : List JVal) (p : Priority) (hl : l ≠ []) :
    (acceptRequest s l p).priorityQueue ≠ [] := by
  have hne : sortQueue (s.priorityQueue ++
      [{ ingestionId := s.nextUuid, priority := p, timestamp := s.now }]) ≠ [] := by
    intro h0
    have := length_sortQueue (s.priorityQueue ++
      [{ ingestionId := s.nextUuid, priority := p, timestamp := s.now }])
    rw [h0, List.length_append, List.length_singleton] at this
    simp at this
  unfold acceptRequest
  simp only
  split_ifs with hlen
  · rw [length_sortQueue, List.length_append, List.length_singleton] at hlen
    have hq : s.priorityQueue = [] := List.length_eq_zero.mp (by omega)
    have hsort : sortQueue (s.priorityQueue ++
        [{ ingestionId := s.nextUuid, priority := p, timestamp := s.now }]) =
        [{ ingestionId := s.nextUuid, priority := p, timestamp := s.now }] := by
      rw [hq]
      rfl
    rw [hsort]
    have hlen0 : l.length ≠ 0 := fun h0 => hl (List.length_eq_zero.mp h0)
    have hB := length_batchLoop l l.length 0 (s.nextUuid + 1) (by omega)
    cases hb : batchLoop l l.length 0 (s.nextUuid + 1) with
    | nil =>
      rw [hb] at hB
      simp at hB
      omega
    | cons b0 rest =>
      have hb0 : b0.status = .yet_to_start :=
        status_batchLoop l l.length 0 (s.nextUuid + 1) b0 (by rw [hb]; simp)
      rw [queue_processNextBatch_single _ _
        { status := .yet_to_start, batches := b0 :: rest, priority := p, timestamp := s.now } 0
        (by simp [storeGet_storeSet]) (by simp [firstPending, hb0])]
      simp
  · exact hne

/-- C19. In every reachable state `priorityQueue` is empty exactly when no invocation
of `processNextBatch` is suspended, and at most one is; so for an admission in
that state the test `priorityQueue.length === 1` after the push and sort holds
exactly when none is suspended, and after the admission of a non-empty id list
the queue is non-empty and exactly one invocation is suspended. -/
theorem wake_condition (t0 : Nat) (es : List Event) :
    ((exec t0 es).priorityQueue = [] ↔ (exec t0 es).inFlight = []) ∧
    (exec t0 es).inFlight.length ≤ 1 ∧
    ∀ (l : List JVal) (p : Priority),
      ((sortQueue ((exec t0 es).priorityQueue ++
          [{ ingestionId := (exec t0 es).nextUuid, priority := p,
             timestamp := (exec t0 es).now }])).length = 1 ↔ (exec t0 es).inFlight = []) ∧
      (l ≠ [] → (acceptRequest (exec t0 es) l p).priorityQueue ≠ [] ∧
        (acceptRequest (exec t0 es) l p).inFlight.length = 1) := by
  have key : ∀ s : State, WorkerInv s →
      (s.priorityQueue = [] ↔ s.inFlight = []) ∧ s.inFlight.length ≤ 1 := by
    intro s hw
    unfold WorkerInv at hw
    split at hw
    · rename_i hfl
      simp [hfl, hw.1]
    · rename_i hfl
      simp [hfl, hw.1]
    · rename_i hfl
      simp [hfl, hw.1]
    · exact absurd hw id
  obtain ⟨h1, h2⟩ := key _ (inv_exec t0 es).worker
  refine ⟨h1, h2, ?_⟩
  intro l p
  refine ⟨?_, ?_⟩
  · rw [length_sortQueue, List.length_append, List.length_singleton, ← h1]
    constructor
    · intro h
      exact List.length_eq_zero.mp (by omega)
    · intro h
      rw [h]
      rfl
  · intro hl
    have hq := queue_acceptRequest (exec t0 es) l p hl
    obtain ⟨h3, h4⟩ := key _ (inv_acceptRequest (exec t0 es) l p (inv_exec t0 es)).worker
    refine ⟨hq, ?_⟩
    have h5 : (acceptRequest (exec t0 es) l p).inFlight ≠ [] := fun h => hq (h3.mpr h)
    have h6 : (acceptRequest (exec t0 es) l p).inFlight.length ≠ 0 :=
      fun h => h5 (List.length_eq_zero.mp h)
    omega

/-- Witness for C19: a second admission while the first ingestion runs finds the queue
of length 2 after the push, starts nothing, and leaves one suspended invocation. -/
theorem wake_condition_witness :
    ([JVal.num 4] ≠ []) ∧
    (acceptRequest (exec 10000 [request [1, 2, 3] "LOW"]) [.num 4] .HIGH).priorityQueue.map
      (fun e => e.ingestionId) = [2, 0] ∧
    (acceptRequest (exec 10000 [request [1, 2, 3] "LOW"]) [.num 4] .HIGH).inFlight =
      [.execWait 0 0 13000] ∧
    ((acceptRequest (exec 10000 [request [1, 2, 3] "LOW"]) [.num 4] .HIGH).priorityQueue ≠ [] ∧
      (acceptRequest (exec 10000 [request [1, 2, 3] "LOW"]) [.num 4] .HIGH).inFlight.length = 1) :=
  ⟨by decide, by decide, by decide,
    ((wake_condition 10000 [request [1, 2, 3] "LOW"]).2.2 [.num 4] .HIGH).2 (by decide)⟩

/-! ## The stored `ingestion.status` (C20) -/

theorem statusInv_setTriggered (store : List (Nat × Ingestion)) (id k : Nat)
    (h : StatusInv store) (hk : firstPending (batchesOf store id) = some k) :
    StatusInv (setBatchStatus store id k .triggered) := by
  refine forall_storeModify _ _ _ (fun p => StoredStatusOk p.2) h ?_
  intro ing hg hok
  obtain ⟨ing2, hg2, hfp⟩ := storeGet_of_firstPending _ _ _ hk
  rw [hg] at hg2
  cases hg2
  obtain ⟨b, hb, hs⟩ := firstPending_some _ _ hfp
  refine ⟨hok.1, ?_⟩
  intro hc
  have := hok.2 hc b (List.getElem?_mem hb)
  rw [hs] at this
  exact absurd this (by decide)

theorem statusInv_setCompleted (store : List (Nat × Ingestion)) (id k : Nat)
    (h : StatusInv store) : StatusInv (setBatchStatus store id k .completed) := by
  refine forall_storeModify _ _ _ (fun p => StoredStatusOk p.2) h ?_
  intro ing hg hok
  refine ⟨hok.1, ?_⟩
  intro hc b hb
  rcases mem_setStatusAt _ _ _ _ hb with h1 | h1
  · exact hok.2 hc b h1
  · exact h1

theorem statusInv_processNextBatch (s : State) (q : List QueueEntry)
    (h : StatusInv s.ingestionStore) : StatusInv (processNextBatch s q).ingestionStore := by
  rcases processNextBatch_store s q with h1 | ⟨id, k, hk, h1⟩
  · rw [h1]
    exact h
  · rw [h1]
    exact statusInv_setTriggered _ id k h hk

theorem storeTriggered_setCompleted (store : List (Nat × Ingestion)) (id k : Nat) (b : Batch)
    (h1 : storeTriggered store = 1) (hk : (batchesOf store id)[k]? = some b)
    (hs : b.status = .triggered) :
    storeTriggered (setBatchStatus store id k .completed) = 0 := by
  obtain ⟨ing, hg, hbk⟩ := storeGet_of_getElem? _ _ _ _ hk
  have := storeTriggered_storeModify store id
    (fun ing => { ing with batches := setStatusAt ing.batches k .completed }) ing hg
  simp only at this
  have h2 := trigCount_complete ing.batches k b hbk hs
  unfold setBatchStatus
  omega

theorem any_triggered_of_storeTriggered (store : List (Nat × Ingestion)) (id : Nat)
    (h : storeTriggered store = 0) :
    (batchesOf store id).any (fun b => decide (b.status = .triggered)) = false := by
  unfold batchesOf
  cases hg : storeGet store id with
  | none => rfl
  | some ing =>
    have h0 := trigCount_of_storeTriggered store h _ (storeGet_mem _ _ _ hg)
    simp only [trigCount, List.countP_eq_zero] at h0
    rw [List.any_eq_false]
    exact h0

theorem statusInv_complete (s : State) (id k : Nat) (b : Batch)
    (h1 : storeTriggered s.ingestionStore = 1)
    (hk : (batchesOf s.ingestionStore id)[k]? = some b) (hs : b.status = .triggered)
    (h : StatusInv s.ingestionStore) : StatusInv (complete s id k).ingestionStore := by
  have hc := statusInv_setCompleted s.ingestionStore id k h
  have h0 := storeTriggered_setCompleted _ id k b h1 hk hs
  have hany := any_triggered_of_storeTriggered _ id h0
  unfold complete
  simp only
  split_ifs with hall htrig
  · apply statusInv_processNextBatch
    refine forall_storeModify _ _ _ (fun p => StoredStatusOk p.2) hc ?_
    intro ing hg _
    refine ⟨by simp, fun _ => ?_⟩
    simpa [batchesOf, hg] using hall
  · rw [hany] at htrig
    cases htrig
  · exact statusInv_processNextBatch _ _ hc

theorem statusInv_resume (s : State) (i : Nat) (hinv : Inv s)
    (h : StatusInv s.ingestionStore) : StatusInv (resume s i).ingestionStore := by
  obtain ⟨hb, hw⟩ := hinv
  unfold resume
  cases hfl : s.inFlight with
  | nil => exact h
  | cons w rest =>
    cases rest with
    | cons w2 rest2 => simp only [WorkerInv, hfl] at hw
    | nil =>
      cases i with
      | succ j => exact h
      | zero =>
        cases w with
        | rateWait id k wake =>
          simp only [WorkerInv, hfl] at hw
          simp only [List.getElem?_cons_zero, List.eraseIdx_cons_zero]
          split_ifs
          · exact statusInv_setTriggered _ id k h hw.2.2.1
          · exact h
        | execWait id k wake =>
          simp only [WorkerInv, hfl] at hw
          obtain ⟨_, h1, b, hk, hs⟩ := hw
          simp only [List.getElem?_cons_zero, List.eraseIdx_cons_zero]
          split_ifs
          · exact statusInv_complete _ id k b h1 hk hs h
          · exact h

theorem statusInv_acceptRequest (s : State) (l : List JVal) (p : Priority) (hinv : Inv s)
    (h : StatusInv s.ingestionStore) : StatusInv (acceptRequest s l p).ingestionStore := by
  have h1 : StatusInv (storeSet s.ingestionStore s.nextUuid
      { status := .yet_to_start, batches := batchLoop l l.length 0 (s.nextUuid + 1),
        priority := p, timestamp := s.now }) := by
    rw [storeSet_fresh _ _ _ hinv.base.keys]
    intro q hq
    rcases List.mem_append.mp hq with hq | hq
    · exact h q hq
    · rw [List.mem_singleton] at hq
      subst hq
      exact ⟨by simp, fun hc => by simp at hc⟩
  unfold acceptRequest
  simp only
  split_ifs
  · exact statusInv_processNextBatch _ _ h1
  · exact h1

theorem statusInv_step (s : State) (e : Event) (hinv : Inv s)
    (h : StatusInv s.ingestionStore) : StatusInv (step s e).ingestionStore := by
  cases e with
  | ingest ids priority =>
    simp only [step]
    rcases ingest_response s ids priority with hr | ⟨l, p, hr⟩
    · rw [hr]
      exact h
    · rw [hr]
      exact statusInv_acceptRequest s l p hinv h
  | timeout i => exact statusInv_resume s i hinv h
  | tick dt => exact h

theorem statusInv_foldl (es : List Event) (s : State) (hinv : Inv s)
    (h : StatusInv s.ingestionStore) : StatusInv (es.foldl step s).ingestionStore := by
  induction es generalizing s with
  | nil => exact h
  | cons e rest ih => exact ih _ (inv_step s e hinv) (statusInv_step s e hinv h)

theorem statusInv_exec (t0 : Nat) (es : List Event) : StatusInv (exec t0 es).ingestionStore :=
  statusInv_foldl es _ (inv_init t0) (fun _ hp => by simp [init] at hp)

/-- C20. In every reachable state the stored `status` of every ingestion is
`'yet_to_start'` or `'completed'`, and it is `'completed'` only if every batch of
the ingestion is `'completed'`; and whenever an invocation is suspended at the
execution wait, the `anyTriggered` it will compute after marking its batch
`'completed'` is false, so line 123 is never reached. -/
theorem stored_status_never_triggered (t0 : Nat) (es : List Event) :
    (∀ id ing, storeGet (exec t0 es).ingestionStore id = some ing →
      (ing.status = .yet_to_start ∨ ing.status = .completed) ∧
      (ing.status = .completed → ∀ b ∈ ing.batches, b.status = .completed)) ∧
    ∀ (i id k : Nat) (wake : Int),
      (exec t0 es).inFlight[i]? = some (Suspended.execWait id k wake) →
      (batchesOf (setBatchStatus (exec t0 es).ingestionStore id k .completed) id).any
        (fun b => decide (b.status = .triggered)) = false := by
  constructor
  · intro id ing hg
    have h := statusInv_exec t0 es _ (storeGet_mem _ _ _ hg)
    refine ⟨?_, h.2⟩
    have h1 := h.1
    simp only at h1
    cases hs : ing.status
    · exact Or.inl rfl
    · exact absurd hs h1
    · exact Or.inr rfl
  · intro i id k wake hi
    have hw := (inv_exec t0 es).worker
    cases hfl : (exec t0 es).inFlight with
    | nil => simp [hfl] at hi
    | cons w rest =>
      cases rest with
      | cons w2 rest2 => simp only [WorkerInv, hfl] at hw
      | nil =>
        rw [hfl] at hi
        cases i with
        | succ j => simp at hi
        | zero =>
          simp only [List.getElem?_cons_zero, Option.some.injEq] at hi
          subst hi
          simp only [WorkerInv, hfl] at hw
          obtain ⟨_, h1, b, hk, hs⟩ := hw
          exact any_triggered_of_storeTriggered _ id
            (storeTriggered_setCompleted _ id k b h1 hk hs)

/-- Witness for C20: while the first batch of `[1,2,3,4]` is `'triggered'` the stored
field is `'yet_to_start'`, and the suspended invocation will compute `anyTriggered`
false. -/
theorem stored_status_never_triggered_witness :
    storeGet (exec 10000 [request [1, 2, 3, 4] "LOW"]).ingestionStore 0 =
      some { status := .yet_to_start,
             batches := [{ batch_id := 1, ids := [.num 1, .num 2, .num 3], status := .triggered },
                         { batch_id := 2, ids := [.num 4], status := .yet_to_start }],
             priority := .LOW, timestamp := 10000 } ∧
    (BStatus.yet_to_start = .yet_to_start ∨ BStatus.yet_to_start = .completed) ∧
    (exec 10000 [request [1, 2, 3, 4] "LOW"]).inFlight[0]? = some (.execWait 0 0 13000) ∧
    (batchesOf (setBatchStatus (exec 10000 [request [1, 2, 3, 4] "LOW"]).ingestionStore 0 0
      .completed) 0).any (fun b => decide (b.status = .triggered)) = false :=
  ⟨by decide,
    ((stored_status_never_triggered 10000 [request [1, 2, 3, 4] "LOW"]).1 0
      { status := .yet_to_start,
        batches := [{ batch_id := 1, ids := [.num 1, .num 2, .num 3], status := .triggered },
                    { batch_id := 2, ids := [.num 4], status := .yet_to_start }],
        priority := .LOW, timestamp := 10000 } (by decide)).1,
    by decide,
    (stored_status_never_triggered 10000 [request [1, 2, 3, 4] "LOW"]).2 0 0 0 13000
      (by decide)⟩

end LoopAI
